import Mathlib

/-!
Near-nullspace builder and option dispatch of the performance-test driver.

Shallow embedding of `src/elasticity_problem.h` (`elastic::build_near_nullspace`,
`elastic::problem`) and of the option dispatch of `src/main.cpp`.

Modelling decisions.

* A PETSc vector is its array of entries, a function from the dof index to a
  scalar; the vector of a function space `V` has `V.size` entries and the
  reductions (`dot`, `norm`) run over the indices below `V.size`.  One process
  is modelled: there are no ghost entries.
* Scalars are the elements of a type `K` that has the operations the code
  uses (`0`, `1`, `+`, `*`, `-`, `/`, `<`) and a square-root function
  `sqrt : K → K`; no law is assumed of them in the definitions.  The program
  computes in IEEE doubles: `Double` below is that arithmetic (binary64,
  round to nearest, ties to even, normal range).  A linearly ordered field with
  an exact square root is the other instance; statements that hold in exact
  arithmetic only say so in their hypotheses.
* `VecDot` accumulates the products in index order, the norm is the square
  root of the inner product of the vector with itself, and normalisation
  divides by the norm.
* C++ exceptions are the `Except.error` results.
-/

namespace elastic

/-- Entries of a vector, indexed by degree of freedom. -/
abbrev Vec (K : Type) := Nat → K

/-- The two ways the builder fails.  `config` is the runtime error of asking a
function space for a sub-space it does not have, `degenerate` the runtime error
of the orthonormalisation; the payload records the index of the vector and the
norm that failed the test. -/
inductive Error (K : Type) where
  | config (requested available : Nat)
  | degenerate (index : Nat) (norm : K)
  deriving DecidableEq, Repr

/-- A function space as the builder reads it: the size of the index map of its
dofmap, the dofs of its own dofmap (cell by cell, so a dof may repeat), the
dofmaps of its component sub-spaces, and the coordinate `x d j` of dof `d`
along axis `j`. -/
structure FunctionSpace (K : Type) where
  size : Nat
  dofmap : List Nat
  components : List (List Nat)
  x : Nat → Nat → K

variable {K : Type}

/-- Modelled from the spec: `FunctionSpace::sub` belongs to the finite-element
library and is not under `src/`.  `V.sub({i})` is the sub-space of component
`i`, a view on the dofs of that component; a space that has no component `i`
is rejected with a configuration error. -/
def FunctionSpace.sub (V : FunctionSpace K) (i : Nat) : Except (Error K) (FunctionSpace K) :=
  match V.components.get? i with
  | some dofs => .ok { size := V.size, dofmap := dofs, components := [], x := V.x }
  | none => .error (.config i V.components.length)

/-- Modelled from the spec: `DofMap::set` belongs to the finite-element
library.  `V.dofmap()->set(w, value)` writes `value` at every dof of the
dofmap of `V`. -/
def FunctionSpace.set (V : FunctionSpace K) (w : Vec K) (value : K) : Vec K :=
  V.dofmap.foldl (fun w d => Function.update w d value) w

/-- Modelled from the spec: `FunctionSpace::set_x` belongs to the
finite-element library.  `V.set_x(w, value, component)` writes, at every dof
of `V`, `value` times the coordinate of the dof along axis `component`. -/
def FunctionSpace.set_x [Mul K] (V : FunctionSpace K) (w : Vec K) (value : K) (component : Nat) :
    Vec K :=
  V.dofmap.foldl (fun w d => Function.update w d (value * V.x d component)) w

/-- The freshly created vector: every entry is zero. -/
def zero_vec [Zero K] : Vec K := fun _ => 0

/-- Lines 36-69 of `build_near_nullspace`: the three sub-spaces, the six
vectors and the writes of the translation and rotation modes, in source
order.  The result is `basis_vec` as it stands before orthonormalisation. -/
def raw_vectors [Zero K] [One K] [Neg K] [Mul K] (V : FunctionSpace K) : Except (Error K) (List (Vec K)) :=
  match V.sub 0 with
  | .error e => .error e
  | .ok V0 =>
    match V.sub 1 with
    | .error e => .error e
    | .ok V1 =>
      match V.sub 2 with
      | .error e => .error e
      | .ok V2 =>
        let basis0 := V0.set zero_vec 1
        let basis1 := V1.set zero_vec 1
        let basis2 := V2.set zero_vec 1
        let basis3 := V1.set_x (V0.set_x zero_vec (-1) 1) 1 0
        let basis4 := V2.set_x (V0.set_x zero_vec 1 2) (-1) 0
        let basis5 := V1.set_x (V2.set_x zero_vec 1 1) (-1) 2
        .ok [basis0, basis1, basis2, basis3, basis4, basis5]

/-- Inner product of two vectors of `n` entries (`VecDot`): the products are
accumulated in index order, starting from zero. -/
def dot [Zero K] [Add K] [Mul K] : Nat → Vec K → Vec K → K
  | 0, _, _ => 0
  | n + 1, v, w => dot n v w + v n * w n

/-- The update `y + a x` (`VecAXPY`). -/
def axpy [Add K] [Mul K] (a : K) (x y : Vec K) : Vec K :=
  fun i => y i + a * x i

/-- The l2 norm of a vector of `n` entries. -/
def norm [Zero K] [Add K] [Mul K] (sqrt : K → K) (n : Nat) (v : Vec K) : K :=
  sqrt (dot n v v)

/-- Division of a vector by a scalar (normalisation by the norm). -/
def divide [Div K] (v : Vec K) (a : K) : Vec K :=
  fun i => v i / a

/-- The inner loop of the orthonormalisation: `v` is orthogonalised against
the vectors already treated, one after the other in index order, each inner
product being taken with the current, already updated `v`. -/
def orthogonalize [Zero K] [Add K] [Mul K] [Neg K] (n : Nat) (v : Vec K) : List (Vec K) → Vec K
  | [] => v
  | q :: qs => orthogonalize n (axpy (-(dot n v q)) q v) qs

/-- Modelled from the spec: `VectorSpaceBasis::orthonormalize` belongs to the
linear-algebra library and is not under `src/`.  The vectors are treated in
index order; each is orthogonalised against the vectors already treated, its
norm is tested against the tolerance, a norm below the tolerance is reported
as an error, and otherwise the vector is normalised.  `done` holds the vectors
already treated, `n` is the number of entries. -/
def orthonormalize_from [Zero K] [One K] [Add K] [Mul K] [Neg K] [Div K] [LT K]
    [∀ a b : K, Decidable (a < b)]
    (sqrt : K → K) (tol : K) (n : Nat) :
    List (Vec K) → List (Vec K) → Except (Error K) (List (Vec K))
  | done, [] => .ok done
  | done, v :: rest =>
    let w := orthogonalize n v done
    if norm sqrt n w < tol then .error (.degenerate done.length (norm sqrt n w))
    else orthonormalize_from sqrt tol n (done ++ [divide w (norm sqrt n w)]) rest

/-- The norms the orthonormalisation tests against the tolerance, in the
order it meets them: the trace of the tests of `orthonormalize_from`, up to
and including the first norm that fails. -/
def norms_met [Zero K] [One K] [Add K] [Mul K] [Neg K] [Div K] [LT K]
    [∀ a b : K, Decidable (a < b)]
    (sqrt : K → K) (tol : K) (n : Nat) :
    List (Vec K) → List (Vec K) → List K
  | _, [] => []
  | done, v :: rest =>
    let w := orthogonalize n v done
    if norm sqrt n w < tol then [norm sqrt n w]
    else norm sqrt n w :: norms_met sqrt tol n (done ++ [divide w (norm sqrt n w)]) rest

/-- The vectors the orthonormalisation produces when no norm fails the test:
each vector of the input after the inner loop, divided by its norm. -/
def projections [Zero K] [Add K] [Mul K] [Neg K] [Div K] (sqrt : K → K) (n : Nat) :
    List (Vec K) → List (Vec K) → List (Vec K)
  | done, [] => done
  | done, v :: rest =>
    let w := orthogonalize n v done
    projections sqrt n (done ++ [divide w (norm sqrt n w)]) rest

/-- The orthonormalisation of a whole basis set. -/
def orthonormalize [Zero K] [One K] [Add K] [Mul K] [Neg K] [Div K] [LT K]
    [∀ a b : K, Decidable (a < b)]
    (sqrt : K → K) (tol : K) (n : Nat)
    (basis : List (Vec K)) : Except (Error K) (List (Vec K)) :=
  orthonormalize_from sqrt tol n [] basis

/-- The function `build_near_nullspace`: the raw vectors, then the
orthonormalisation of the basis set (lines 71-74). -/
def build_near_nullspace [Zero K] [One K] [Add K] [Mul K] [Neg K] [Div K] [LT K]
    [∀ a b : K, Decidable (a < b)]
    (sqrt : K → K) (tol : K)
    (V : FunctionSpace K) : Except (Error K) (List (Vec K)) :=
  match raw_vectors V with
  | .error e => .error e
  | .ok basis_vec => orthonormalize sqrt tol V.size basis_vec

/-- The matrix of the system: its assembled entries and the near-nullspace
attached to it, if any. -/
structure PETScMatrix (M K : Type) where
  mat : M
  near_nullspace : Option (List (Vec K))

/-- `A.set_near_nullspace(nullspace)`. -/
def PETScMatrix.set_near_nullspace {M : Type} (A : PETScMatrix M K) (nullspace : List (Vec K)) :
    PETScMatrix M K :=
  { A with near_nullspace := some nullspace }

/-- The library routines `problem` calls, as parameters: the creation of the
function space on a mesh, the assembly of the matrix of the bilinear form
(`true`: with the boundary condition and the diagonal, `false`: without any),
the assembly of the right-hand side, and `MatNullSpaceTest`. -/
structure Library (Mesh M K : Type) where
  create_functionspace : Mesh → FunctionSpace K
  assemble_matrix : FunctionSpace K → Bool → M
  assemble_vector : FunctionSpace K → Vec K
  MatNullSpaceTest : List (Vec K) → M → Bool

/-- What `problem` leaves behind: the returned tuple `(A, b, u)` and the line
it printed. -/
structure Outcome (M K : Type) where
  A : PETScMatrix M K
  b : Vec K
  u : Vec K
  printed : String

/-- The function `problem`: function space, the matrix `A2` without boundary
condition, the system `A`, `b`, the solution function `u`, the near-nullspace
attached to `A`, the nullspace test on `A2` and its message, and the returned
tuple. -/
def problem [Zero K] [One K] [Add K] [Mul K] [Neg K] [Div K] [LT K]
    [∀ a b : K, Decidable (a < b)]
    {Mesh M : Type} (lib : Library Mesh M K) (sqrt : K → K)
    (tol : K) (mesh : Mesh) : Except (Error K) (Outcome M K) :=
  let V := lib.create_functionspace mesh
  let A2 : PETScMatrix M K := { mat := lib.assemble_matrix V false, near_nullspace := none }
  let A : PETScMatrix M K := { mat := lib.assemble_matrix V true, near_nullspace := none }
  let b := lib.assemble_vector V
  let u : Vec K := zero_vec
  match build_near_nullspace sqrt tol V with
  | .error e => .error e
  | .ok nullspace =>
    let A := A.set_near_nullspace nullspace
    let isNull := lib.MatNullSpaceTest nullspace A2.mat
    let printed := if isNull = true then "Is a nullspace: 1" else "Not a nullspace: 0"
    .ok { A := A, b := b, u := u, printed := printed }

/-- The dofs of component `i` of `V`: the dofmap of the sub-space `V.sub({i})`
(no dof when there is no such component). -/
def FunctionSpace.dofs (V : FunctionSpace K) (i : Nat) : List Nat :=
  V.components.getD i []

/-- Every dof belongs to one component only. -/
def FunctionSpace.separate (V : FunctionSpace K) : Prop :=
  ∀ i j d, i ≠ j → d ∈ V.dofs i → d ∉ V.dofs j

/-- The returned tuple `(A, b, u)` of an outcome. -/
def Outcome.tuple {M : Type} (o : Outcome M K) : PETScMatrix M K × Vec K × Vec K :=
  (o.A, o.b, o.u)

/-- Cross product of two points of space, read along the axes 0, 1, 2. -/
def cross [Ring K] (a b : Nat → K) (k : Nat) : K :=
  match k with
  | 0 => a 1 * b 2 - a 2 * b 1
  | 1 => a 2 * b 0 - a 0 * b 2
  | 2 => a 0 * b 1 - a 1 * b 0
  | _ => 0

/-- The unit vector of axis `j`. -/
def unit_axis [Zero K] [One K] (j : Nat) : Nat → K :=
  fun k => if k = j then 1 else 0

/-- Closed form of the six raw vectors of a space with three components. -/
def raw_closed [Ring K] (V : FunctionSpace K) : List (Vec K) :=
  [fun d => if d ∈ V.dofs 0 then 1 else 0,
   fun d => if d ∈ V.dofs 1 then 1 else 0,
   fun d => if d ∈ V.dofs 2 then 1 else 0,
   fun d => if d ∈ V.dofs 1 then 1 * V.x d 0 else if d ∈ V.dofs 0 then -1 * V.x d 1 else 0,
   fun d => if d ∈ V.dofs 2 then -1 * V.x d 0 else if d ∈ V.dofs 0 then 1 * V.x d 2 else 0,
   fun d => if d ∈ V.dofs 1 then -1 * V.x d 2 else if d ∈ V.dofs 2 then 1 * V.x d 1 else 0]

/-- The rigid-body displacement field `u(p) = a + w x p`: translation `a`,
infinitesimal rotation `w`. -/
def rigid [Ring K] (a w : Nat → K) (p : Nat → K) : Nat → K :=
  fun k => a k + cross w p k

/-- The translation of the combination of the six raw modes with coefficients
`g`: modes 0, 1, 2 are the unit translations. -/
def translation_of [Zero K] (g : Fin 6 → K) : Nat → K :=
  fun k =>
    match k with
    | 0 => g 0
    | 1 => g 1
    | 2 => g 2
    | _ => 0

/-- The rotation of the combination of the six raw modes with coefficients
`g`: modes 3, 4, 5 are the rotations about the axes 2, 1, 0. -/
def rotation_of [Zero K] (g : Fin 6 → K) : Nat → K :=
  fun k =>
    match k with
    | 0 => g 5
    | 1 => g 4
    | 2 => g 3
    | _ => 0

/-- A basis set is orthonormal over `n` entries: every vector has inner
product 1 with itself and two vectors at different places have inner product
0. -/
def orthonormal_set [Zero K] [One K] [Add K] [Mul K] (n : Nat) (basis : List (Vec K)) : Prop :=
  (∀ q ∈ basis, dot n q q = 1) ∧ basis.Pairwise (fun p q => dot n p q = 0)

/-- The square-root function is exact on the non-negative scalars. -/
def exact_sqrt [LinearOrderedField K] (sqrt : K → K) : Prop :=
  ∀ a, 0 ≤ a → 0 ≤ sqrt a ∧ sqrt a * sqrt a = a

/-- The first `m` vectors of a basis set, each read on its `n` entries. -/
def rows [Zero K] (n m : Nat) (basis : List (Vec K)) : Fin m → Fin n → K :=
  fun i d => basis.getD i zero_vec d

/-- The vectors of a basis set divided by their norms. -/
def normalized [Zero K] [Add K] [Mul K] [Div K] (sqrt : K → K) (n : Nat)
    (basis : List (Vec K)) :
    List (Vec K) :=
  basis.map (fun v => divide v (norm sqrt n v))

/-- A space of six dofs, two per component: dofs 0, 1 carry component 0 at the
points (0,-1,0), (0,1,0); dofs 2, 3 carry component 1 at (0,0,-1), (0,0,1);
dofs 4, 5 carry component 2 at (-1,0,0), (1,0,0). -/
def sample_space (K : Type) [Zero K] [One K] [Neg K] : FunctionSpace K where
  size := 6
  dofmap := [0, 1, 2, 3, 4, 5]
  components := [[0, 1], [2, 3], [4, 5]]
  x := fun d j =>
    match d, j with
    | 0, 1 => -1
    | 1, 1 => 1
    | 2, 2 => -1
    | 3, 2 => 1
    | 4, 0 => -1
    | 5, 0 => 1
    | _, _ => 0

/-- Three points of space are not on one line: the cross product of the two
edges from the first point is not zero. -/
def noncollinear [Ring K] (P Q R : Nat → K) : Prop :=
  ∃ k, k < 3 ∧ cross (fun j => Q j - P j) (fun j => R j - P j) k ≠ 0

/-- Every dof of the three components is an entry of the vectors. -/
def FunctionSpace.in_range (V : FunctionSpace K) : Prop :=
  ∀ k, k < 3 → ∀ d ∈ V.dofs k, d < V.size

/-- Each geometric point that carries a dof carries a dof of each of the three
components. -/
def FunctionSpace.carries_all (V : FunctionSpace K) : Prop :=
  ∀ k, k < 3 → ∀ d ∈ V.dofs k, ∀ k2, k2 < 3 →
    ∃ d2 ∈ V.dofs k2, ∀ j, j < 3 → V.x d2 j = V.x d j

/-- The coordinates of the dofs include three points that are not on one
line. -/
def FunctionSpace.three_noncollinear [Ring K] (V : FunctionSpace K) : Prop :=
  ∃ k1 d1 k2 d2 k3 d3, k1 < 3 ∧ d1 ∈ V.dofs k1 ∧ k2 < 3 ∧ d2 ∈ V.dofs k2 ∧
    k3 < 3 ∧ d3 ∈ V.dofs k3 ∧ noncollinear (V.x d1) (V.x d2) (V.x d3)

/-- A space on the three points (0,0,0), (s,0,0), (0,s,0): dof `3 * p + k` is
the dof of component `k` at point `p`. -/
def triangle_space (K : Type) [Zero K] (s : K) : FunctionSpace K where
  size := 9
  dofmap := [0, 1, 2, 3, 4, 5, 6, 7, 8]
  components := [[0, 3, 6], [1, 4, 7], [2, 5, 8]]
  x := fun d j =>
    match d / 3, j with
    | 1, 0 => s
    | 2, 1 => s
    | _, _ => 0

/-- A space on the four points (1,0,0), (0,1,0), (-1,0,0), (0,-1,0): dof
`3 * p + k` is the dof of component `k` at point `p`. -/
def square_space (K : Type) [Zero K] [One K] [Neg K] : FunctionSpace K where
  size := 12
  dofmap := [0, 1, 2, 3, 4, 5, 6, 7, 8, 9, 10, 11]
  components := [[0, 3, 6, 9], [1, 4, 7, 10], [2, 5, 8, 11]]
  x := fun d j =>
    match d / 3, j with
    | 0, 0 => 1
    | 1, 1 => 1
    | 2, 0 => -1
    | 3, 1 => -1
    | _, _ => 0

/-- A space of three dofs, one per component, all at the origin. -/
def origin_space (K : Type) [Zero K] : FunctionSpace K where
  size := 3
  dofmap := [0, 1, 2]
  components := [[0], [1], [2]]
  x := fun _ _ => 0

/-- A space with two components only. -/
def planar_space (K : Type) [Zero K] [One K] : FunctionSpace K where
  size := 4
  dofmap := [0, 1, 2, 3]
  components := [[0, 2], [1, 3]]
  x := fun d j =>
    match d, j with
    | 2, 0 => 1
    | 3, 0 => 1
    | _, _ => 0


/-- Number of binary digits of a natural number below `2 ^ fuel`. -/
def bits : Nat → Nat → Nat
  | 0, _ => 0
  | fuel + 1, n => if n = 0 then 0 else bits fuel (n / 2) + 1

/-- Rounding of a positive integer with at least 55 binary digits, followed by
a fraction that is not zero exactly when `sticky` holds, to 53 binary digits:
to nearest, ties to even.  The result `(m, k)` stands for `m * 2 ^ k`. -/
def round_bits (q : Nat) (sticky : Bool) : Nat × Nat :=
  let k := bits 4096 q - 53
  let m := q / 2 ^ k
  let rest := q % 2 ^ k
  let half := 2 ^ (k - 1)
  if rest > half then (m + 1, k)
  else if rest < half then (m, k)
  else if sticky then (m + 1, k)
  else if m % 2 = 1 then (m + 1, k)
  else (m, k)

/-- The double nearest to the positive rational `n / d`. -/
def round_pos (n d : Nat) : ℚ :=
  let s := 56 + bits 4096 d - bits 4096 n
  let q := (n * 2 ^ s) / d
  let sticky := decide ((n * 2 ^ s) % d ≠ 0)
  let r := round_bits q sticky
  mkRat ((r.1 * 2 ^ r.2 : Nat) : Int) (2 ^ s)

/-- The double nearest to a rational (binary64, round to nearest, ties to
even; the exponent range is not bounded). -/
def round_double (a : ℚ) : ℚ :=
  if a.num = 0 then 0
  else if a.num < 0 then -round_pos a.num.natAbs a.den
  else round_pos a.num.natAbs a.den

/-- Integer square root, one binary digit per step from digit `b` down. -/
def isqrt_loop (n : Nat) : Nat → Nat → Nat
  | 0, r => if (r + 1) * (r + 1) ≤ n then r + 1 else r
  | b + 1, r =>
    isqrt_loop n b (if (r + 2 ^ (b + 1)) * (r + 2 ^ (b + 1)) ≤ n then r + 2 ^ (b + 1) else r)

/-- Integer square root. -/
def isqrt (n : Nat) : Nat :=
  isqrt_loop n (bits 4096 n / 2 + 1) 0

/-- The double nearest to the square root of a non-negative double `n / d`,
`d` a power of two; zero stands for the result on a negative argument. -/
def sqrt_round (a : ℚ) : ℚ :=
  if a.num ≤ 0 then 0
  else
    let p := a.num.natAbs * a.den
    let k := (112 - bits 4096 p) / 2
    let scaled := p * 4 ^ k
    let s := isqrt scaled
    let sticky := decide (s * s ≠ scaled)
    let r := round_bits s sticky
    mkRat ((r.1 * 2 ^ r.2 : Nat) : Int) (2 ^ k * a.den)

/-- An IEEE double of the normal range, by its value.  Sums, products and
quotients are the exact results rounded by `round_double`; the opposite is
exact.  Overflow, underflow, infinities and NaN are not modelled, and a
quotient by zero is zero: the builder divides by norms that passed the test of
a positive tolerance only. -/
structure Double where
  val : ℚ
  deriving DecidableEq

instance : Zero Double := ⟨⟨0⟩⟩
instance : One Double := ⟨⟨1⟩⟩
instance : Add Double := ⟨fun a b => ⟨round_double (a.val + b.val)⟩⟩
instance : Mul Double := ⟨fun a b => ⟨round_double (a.val * b.val)⟩⟩
instance : Neg Double := ⟨fun a => ⟨-a.val⟩⟩
instance : Div Double := ⟨fun a b => ⟨round_double (a.val / b.val)⟩⟩
instance : LT Double := ⟨fun a b => a.val < b.val⟩
instance (a b : Double) : Decidable (a < b) := inferInstanceAs (Decidable (a.val < b.val))

/-- The square root of a double (`sqrt` of the C library). -/
def Double.sqrt (a : Double) : Double := ⟨sqrt_round a.val⟩

/-- The double nearest to a rational: a decimal literal of the source. -/
def Double.ofRat (a : ℚ) : Double := ⟨round_double a⟩

/-- A space of six dofs on two points of the line through the origin along
(1,1,1): dof `3 * p + k` is the dof of component `k` at point `p`, and the
points are `(c0,c0,c0)` and `(c1,c1,c1)`. -/
def line_space (K : Type) [Zero K] (c0 c1 : K) : FunctionSpace K where
  size := 6
  dofmap := [0, 1, 2, 3, 4, 5]
  components := [[0, 3], [1, 4], [2, 5]]
  x := fun d j =>
    match d / 3, j with
    | 0, 0 => c0
    | 0, 1 => c0
    | 0, 2 => c0
    | 1, 0 => c1
    | 1, 1 => c1
    | 1, 2 => c1
    | _, _ => 0

/-- The line space with its two points at `1e7` and `2e7` along (1,1,1). -/
def line_e7 : FunctionSpace Double :=
  line_space Double ⟨10000000⟩ ⟨20000000⟩

/-- The raw vectors of `line_e7` (no vector if there were none). -/
def line_raw : List (Vec Double) :=
  (raw_vectors line_e7).toOption.getD []

/-- The raw vectors of the space with all dofs at the origin, in doubles. -/
def origin_raw : List (Vec Double) :=
  (raw_vectors (origin_space Double)).toOption.getD []

/-- The values of a vector of doubles. -/
def Double.vals (v : Vec Double) : Vec ℚ :=
  fun d => (v d).val

/-- The tolerance of the orthonormalisation in the library: the double
`1.0e-10`. -/
def tolerance : Double := Double.ofRat (1 / 10 ^ 10)

end elastic

namespace driver

/-- Lines 58-67 of `main`: the scaling flag, or the runtime error (its
message without the quotation marks around the scaling type). -/
def scaling (scaling_type : String) : Except String Bool :=
  if scaling_type = "strong" then .ok true
  else if scaling_type = "weak" then .ok false
  else .error ("Scaling type " ++ scaling_type ++ " unknown")

/-- Lines 77-103 of `main`: the last argument of `create_mesh`, the number of
components the mesh is created for, or the runtime error. -/
def mesh_components (problem_type : String) : Except String Nat :=
  if problem_type = "poisson" then .ok 1
  else if problem_type = "elasticity" then .ok 3
  else .error ("Unknown problem type: " ++ problem_type)

/-- The option dispatch of `main`: first the scaling type, then the problem
type; the result is `strong_scaling` and the number of components passed to
`create_mesh`. -/
def dispatch (scaling_type problem_type : String) : Except String (Bool × Nat) :=
  match scaling scaling_type with
  | .error e => .error e
  | .ok strong_scaling =>
    match mesh_components problem_type with
    | .error e => .error e
    | .ok n => .ok (strong_scaling, n)

end driver

/-! ## Theorems -/

namespace elastic

variable {K : Type}

section writes

theorem foldl_update_apply (f : Nat → K) (dofs : List Nat) (w : Vec K) (e : Nat) :
    (dofs.foldl (fun w d => Function.update w d (f d)) w) e = if e ∈ dofs then f e else w e := by
  induction dofs generalizing w with
  | nil => simp
  | cons d ds ih =>
    rw [List.foldl_cons, ih]
    by_cases hds : e ∈ ds
    · simp [hds]
    · by_cases hed : e = d
      · subst hed; simp [hds]
      · simp [hds, hed, Function.update_noteq hed]

theorem set_apply (V : FunctionSpace K) (w : Vec K) (value : K) (e : Nat) :
    V.set w value e = if e ∈ V.dofmap then value else w e := by
  unfold FunctionSpace.set
  exact foldl_update_apply (fun _ => value) V.dofmap w e

theorem set_x_apply [Mul K] (V : FunctionSpace K) (w : Vec K) (value : K) (c e : Nat) :
    V.set_x w value c e = if e ∈ V.dofmap then value * V.x e c else w e := by
  unfold FunctionSpace.set_x
  exact foldl_update_apply (fun d => value * V.x d c) V.dofmap w e

theorem sub_ok (V : FunctionSpace K) (i : Nat) (h : i < V.components.length) :
    V.sub i = .ok { size := V.size, dofmap := V.dofs i, components := [], x := V.x } := by
  unfold FunctionSpace.sub FunctionSpace.dofs
  rw [List.getD_eq_getElem?_getD, List.get?_eq_getElem?, List.getElem?_eq_getElem h]
  simp

theorem sub_error (V : FunctionSpace K) (i : Nat) (h : V.components.length ≤ i) :
    V.sub i = .error (.config i V.components.length) := by
  unfold FunctionSpace.sub
  rw [List.get?_eq_getElem?, List.getElem?_eq_none h]

end writes

section raw

variable [Ring K]

theorem raw_vectors_ok (V : FunctionSpace K) (h : 3 ≤ V.components.length) :
    raw_vectors V = .ok (raw_closed V) := by
  unfold raw_vectors
  rw [sub_ok V 0 (by omega), sub_ok V 1 (by omega), sub_ok V 2 (by omega)]
  simp only [raw_closed]
  congr 2
  · funext d; simp [set_apply, zero_vec]
  congr 1
  · funext d; simp [set_apply, zero_vec]
  congr 1
  · funext d; simp [set_apply, zero_vec]
  congr 1
  · funext d; simp [set_x_apply, zero_vec]
  congr 1
  · funext d; simp [set_x_apply, zero_vec]
  congr 1
  · funext d; simp [set_x_apply, zero_vec]

theorem raw_vectors_error (V : FunctionSpace K) (h : V.components.length < 3) :
    ∃ i, i < 3 ∧ raw_vectors V = .error (.config i V.components.length) := by
  unfold raw_vectors
  by_cases h0 : V.components.length ≤ 0
  · exact ⟨0, by omega, by rw [sub_error V 0 h0]⟩
  rw [sub_ok V 0 (by omega)]
  by_cases h1 : V.components.length ≤ 1
  · exact ⟨1, by omega, by simp only []; rw [sub_error V 1 h1]⟩
  rw [sub_ok V 1 (by omega)]
  exact ⟨2, by omega, by simp only []; rw [sub_error V 2 (by omega)]⟩

theorem raw_vectors_inv (V : FunctionSpace K) (raw : List (Vec K))
    (h : raw_vectors V = .ok raw) : 3 ≤ V.components.length ∧ raw = raw_closed V := by
  by_cases h3 : 3 ≤ V.components.length
  · rw [raw_vectors_ok V h3] at h
    exact ⟨h3, (Except.ok.inj h).symm⟩
  · obtain ⟨i, _, hi⟩ := raw_vectors_error V (by omega)
    rw [hi] at h
    cases h

end raw

section samples

theorem sample_space_separate (K : Type) [Ring K] : (sample_space K).separate := by
  intro i j d hij hi hj
  match i, j with
  | 0, 0 => exact hij rfl
  | 1, 1 => exact hij rfl
  | 2, 2 => exact hij rfl
  | 0, 1 => simp [FunctionSpace.dofs, sample_space] at hi hj; omega
  | 0, 2 => simp [FunctionSpace.dofs, sample_space] at hi hj; omega
  | 1, 0 => simp [FunctionSpace.dofs, sample_space] at hi hj; omega
  | 1, 2 => simp [FunctionSpace.dofs, sample_space] at hi hj; omega
  | 2, 0 => simp [FunctionSpace.dofs, sample_space] at hi hj; omega
  | 2, 1 => simp [FunctionSpace.dofs, sample_space] at hi hj; omega
  | _ + 3, _ => simp [FunctionSpace.dofs, sample_space] at hi
  | 0, _ + 3 => simp [FunctionSpace.dofs, sample_space] at hj
  | 1, _ + 3 => simp [FunctionSpace.dofs, sample_space] at hj
  | 2, _ + 3 => simp [FunctionSpace.dofs, sample_space] at hj

end samples

section inner_product

variable [LinearOrderedField K]

/-- In a semiring the accumulation of `dot` is the sum of the products. -/
theorem dot_eq_sum (n : Nat) (v w : Vec K) :
    dot n v w = ∑ i ∈ Finset.range n, v i * w i := by
  induction n with
  | zero => simp [dot]
  | succ n ih => rw [dot, ih, Finset.sum_range_succ]

theorem dot_comm (n : Nat) (v w : Vec K) : dot n v w = dot n w v := by
  rw [dot_eq_sum, dot_eq_sum]
  exact Finset.sum_congr rfl (fun i _ => mul_comm _ _)

theorem dot_axpy_left (n : Nat) (a : K) (x y z : Vec K) :
    dot n (axpy a x y) z = dot n y z + a * dot n x z := by
  rw [dot_eq_sum, dot_eq_sum, dot_eq_sum]
  unfold axpy
  rw [Finset.mul_sum, ← Finset.sum_add_distrib]
  exact Finset.sum_congr rfl (fun i _ => by ring)

theorem dot_axpy_right (n : Nat) (a : K) (x y z : Vec K) :
    dot n z (axpy a x y) = dot n z y + a * dot n z x := by
  rw [dot_comm, dot_axpy_left, dot_comm n y z, dot_comm n x z]

theorem dot_divide_left (n : Nat) (a : K) (v z : Vec K) :
    dot n (divide v a) z = dot n v z / a := by
  rw [dot_eq_sum, dot_eq_sum]
  unfold divide
  rw [Finset.sum_div]
  exact Finset.sum_congr rfl (fun i _ => by ring)

theorem dot_divide_right (n : Nat) (a : K) (v z : Vec K) :
    dot n z (divide v a) = dot n z v / a := by
  rw [dot_comm, dot_divide_left, dot_comm]

theorem dot_self_nonneg (n : Nat) (v : Vec K) : 0 ≤ dot n v v := by
  rw [dot_eq_sum]
  exact Finset.sum_nonneg (fun i _ => mul_self_nonneg (v i))

theorem dot_self_eq_zero (n : Nat) (v : Vec K) (h : dot n v v = 0) :
    ∀ d, d < n → v d = 0 := by
  intro d hd
  rw [dot_eq_sum] at h
  have := (Finset.sum_eq_zero_iff_of_nonneg (fun i _ => mul_self_nonneg (v i))).1 h d
    (Finset.mem_range.2 hd)
  exact mul_self_eq_zero.1 this

theorem dot_congr (n : Nat) (v v2 w : Vec K) (h : ∀ d, d < n → v d = v2 d) :
    dot n v w = dot n v2 w := by
  rw [dot_eq_sum, dot_eq_sum]
  exact Finset.sum_congr rfl (fun i hi => by rw [h i (Finset.mem_range.1 hi)])

/-- Orthogonalising against one unit vector removes the square of the inner
product from the squared norm. -/
theorem dot_self_axpy (n : Nat) (v q : Vec K) (hq : dot n q q = 1) :
    dot n (axpy (-(dot n v q)) q v) (axpy (-(dot n v q)) q v)
      = dot n v v - dot n v q * dot n v q := by
  rw [dot_axpy_left, dot_axpy_right, dot_axpy_right, hq, dot_comm n q v]
  ring

theorem sqrt_one (sqrt : K → K) (hs : exact_sqrt sqrt) : sqrt 1 = 1 := by
  obtain ⟨h0, h1⟩ := hs 1 zero_le_one
  have h2 : (sqrt 1 - 1) * (sqrt 1 + 1) = 0 := by ring_nf; ring_nf at h1; rw [h1]; ring
  rcases mul_eq_zero.1 h2 with h | h
  · linarith
  · linarith

theorem sqrt_zero (sqrt : K → K) (hs : exact_sqrt sqrt) : sqrt 0 = 0 := by
  obtain ⟨_, h1⟩ := hs 0 le_rfl
  exact mul_self_eq_zero.1 h1

theorem sqrt_eq_zero (sqrt : K → K) (hs : exact_sqrt sqrt) (a : K) (ha : 0 ≤ a)
    (h : sqrt a = 0) : a = 0 := by
  obtain ⟨_, h1⟩ := hs a ha
  rw [h] at h1
  simpa using h1.symm

theorem sqrt_lt (sqrt : K → K) (hs : exact_sqrt sqrt) (a tol : K) (ha : 0 ≤ a)
    (htol : 0 < tol) (h : a < tol * tol) : sqrt a < tol := by
  obtain ⟨h0, h1⟩ := hs a ha
  by_contra hcon
  have hle : tol ≤ sqrt a := not_lt.1 hcon
  have : tol * tol ≤ sqrt a * sqrt a := mul_le_mul hle hle htol.le h0
  linarith

end inner_product

section gram_schmidt

variable [LinearOrderedField K]

/-- Orthogonalising against vectors orthogonal to `q` keeps a vector
orthogonal to `q`. -/
theorem orthogonalize_keeps (n : Nat) (q : Vec K) (qs : List (Vec K)) (u : Vec K)
    (hu : dot n u q = 0) (hqs : ∀ p ∈ qs, dot n p q = 0) :
    dot n (orthogonalize n u qs) q = 0 := by
  induction qs generalizing u with
  | nil => simpa [orthogonalize] using hu
  | cons p ps ih =>
    rw [orthogonalize]
    apply ih
    · rw [dot_axpy_left, hu, hqs p (List.mem_cons_self _ _)]
      ring
    · exact fun r hr => hqs r (List.mem_cons_of_mem _ hr)

/-- The result of the inner loop is orthogonal to every vector of an
orthonormal set it was orthogonalised against. -/
theorem orthogonalize_orthogonal (n : Nat) (qs : List (Vec K)) (v : Vec K)
    (h : orthonormal_set n qs) : ∀ q ∈ qs, dot n (orthogonalize n v qs) q = 0 := by
  induction qs generalizing v with
  | nil => intro q hq; cases hq
  | cons p ps ih =>
    obtain ⟨hunit, hpair⟩ := h
    rw [List.pairwise_cons] at hpair
    intro q hq
    rw [orthogonalize]
    rcases List.mem_cons.1 hq with rfl | hq
    · apply orthogonalize_keeps
      · rw [dot_axpy_left, hunit q (List.mem_cons_self _ _)]
        ring
      · intro r hr
        rw [dot_comm]
        exact hpair.1 r hr
    · exact ih _ ⟨fun r hr => hunit r (List.mem_cons_of_mem _ hr), hpair.2⟩ q hq

/-- The inner loop does not increase the squared norm when it runs over unit
vectors. -/
theorem orthogonalize_norm_le (n : Nat) (qs : List (Vec K)) (v : Vec K)
    (h : ∀ q ∈ qs, dot n q q = 1) :
    dot n (orthogonalize n v qs) (orthogonalize n v qs) ≤ dot n v v := by
  induction qs generalizing v with
  | nil => simp [orthogonalize]
  | cons p ps ih =>
    rw [orthogonalize]
    refine le_trans (ih _ (fun r hr => h r (List.mem_cons_of_mem _ hr))) ?_
    rw [dot_self_axpy n v p (h p (List.mem_cons_self _ _))]
    nlinarith [mul_self_nonneg (dot n v p)]

/-- A vector orthogonal to all the vectors of the inner loop is left as it
is. -/
theorem orthogonalize_of_orthogonal (n : Nat) (qs : List (Vec K)) (v : Vec K)
    (h : ∀ q ∈ qs, dot n v q = 0) : orthogonalize n v qs = v := by
  induction qs with
  | nil => rfl
  | cons p ps ih =>
    rw [orthogonalize, h p (List.mem_cons_self _ _)]
    have : axpy (-(0 : K)) p v = v := by
      funext i
      simp [axpy]
    rw [this]
    exact ih (fun r hr => h r (List.mem_cons_of_mem _ hr))

/-- A normalised vector has unit norm when its norm is exact and not zero. -/
theorem dot_self_divide (sqrt : K → K) (hs : exact_sqrt sqrt) (n : Nat) (w : Vec K)
    (hw : norm sqrt n w ≠ 0) :
    dot n (divide w (norm sqrt n w)) (divide w (norm sqrt n w)) = 1 := by
  rw [dot_divide_left, dot_divide_right]
  have h2 := (hs (dot n w w) (dot_self_nonneg n w)).2
  unfold norm at hw ⊢
  rw [div_div, div_eq_one_iff_eq (mul_ne_zero hw hw)]
  exact h2.symm

/-- Appending a unit vector orthogonal to an orthonormal set gives an
orthonormal set. -/
theorem orthonormal_set_append (n : Nat) (qs : List (Vec K)) (q : Vec K)
    (h : orthonormal_set n qs) (hq : dot n q q = 1) (horth : ∀ p ∈ qs, dot n q p = 0) :
    orthonormal_set n (qs ++ [q]) := by
  constructor
  · intro r hr
    rcases List.mem_append.1 hr with hr | hr
    · exact h.1 r hr
    · rw [List.mem_singleton.1 hr]; exact hq
  · rw [List.pairwise_append]
    refine ⟨h.2, List.pairwise_singleton _ _, ?_⟩
    intro p hp r hr
    rw [List.mem_singleton.1 hr, dot_comm]
    exact horth p hp

/-- The loop invariant of the orthonormalisation: started on an orthonormal
set, a successful run ends on an orthonormal set with one vector more for
each vector treated. -/
theorem orthonormalize_from_orthonormal (sqrt : K → K) (tol : K) (hs : exact_sqrt sqrt)
    (htol : 0 < tol) (n : Nat) (todo done basis : List (Vec K))
    (hdone : orthonormal_set n done)
    (h : orthonormalize_from sqrt tol n done todo = .ok basis) :
    orthonormal_set n basis ∧ basis.length = done.length + todo.length := by
  induction todo generalizing done with
  | nil =>
    rw [orthonormalize_from] at h
    cases h
    exact ⟨hdone, by simp⟩
  | cons v rest ih =>
    rw [orthonormalize_from] at h
    split at h
    · cases h
    · rename_i hn
      have hpos : norm sqrt n (orthogonalize n v done) ≠ 0 := by
        intro h0
        rw [h0] at hn
        exact hn htol
      have hstep := ih (done ++ [divide (orthogonalize n v done)
          (norm sqrt n (orthogonalize n v done))]) ?_ h
      · refine ⟨hstep.1, ?_⟩
        rw [hstep.2]
        simp
        omega
      · apply orthonormal_set_append n done _ hdone (dot_self_divide sqrt hs n _ hpos)
        intro p hp
        rw [dot_divide_left, orthogonalize_orthogonal n done v hdone p hp]
        simp

theorem orthonormal_set_nil (n : Nat) : orthonormal_set n ([] : List (Vec K)) :=
  And.intro (fun _ h => by cases h) List.Pairwise.nil

/-- Any failure of the orthonormalisation is the report of a norm below the
tolerance. -/
theorem orthonormalize_from_error (sqrt : K → K) (tol : K) (n : Nat)
    (todo done : List (Vec K)) (e : Error K)
    (h : orthonormalize_from sqrt tol n done todo = .error e) :
    ∃ i nrm, e = .degenerate i nrm ∧ nrm < tol ∧ done.length ≤ i ∧
      i < done.length + todo.length := by
  induction todo generalizing done with
  | nil => rw [orthonormalize_from] at h; cases h
  | cons v rest ih =>
    rw [orthonormalize_from] at h
    split at h
    · rename_i hn
      cases h
      exact ⟨done.length, _, rfl, hn, le_rfl, by simp⟩
    · obtain ⟨i, nrm, he, hlt, hle, hi⟩ := ih _ h
      refine ⟨i, nrm, he, hlt, ?_, ?_⟩
      · simp at hle; omega
      · simp at hi ⊢; omega

end gram_schmidt

section orthogonal_input

variable [LinearOrderedField K]

/-- On pairwise orthogonal vectors whose norms reach the tolerance the
orthonormalisation succeeds and divides each vector by its norm. -/
theorem orthonormalize_from_of_orthogonal (sqrt : K → K) (tol : K) (n : Nat)
    (todo done : List (Vec K))
    (hpair : todo.Pairwise (fun p q => dot n p q = 0))
    (hcross : ∀ q ∈ done, ∀ v ∈ todo, dot n v q = 0)
    (hbig : ∀ v ∈ todo, ¬ norm sqrt n v < tol) :
    orthonormalize_from sqrt tol n done todo = .ok (done ++ normalized sqrt n todo) := by
  induction todo generalizing done with
  | nil => simp [orthonormalize_from, normalized]
  | cons v rest ih =>
    rw [List.pairwise_cons] at hpair
    have hv : orthogonalize n v done = v :=
      orthogonalize_of_orthogonal n done v (fun q hq => hcross q hq v (List.mem_cons_self _ _))
    rw [orthonormalize_from, hv, if_neg (hbig v (List.mem_cons_self _ _))]
    rw [ih _ hpair.2 ?_ (fun u hu => hbig u (List.mem_cons_of_mem _ hu))]
    · simp [normalized]
    · intro q hq u hu
      rcases List.mem_append.1 hq with hq | hq
      · exact hcross q hq u (List.mem_cons_of_mem _ hu)
      · rw [List.mem_singleton.1 hq, dot_divide_right, dot_comm, hpair.1 u hu]
        simp

theorem sample_raw_pairwise :
    (raw_closed (sample_space K)).Pairwise (fun p q => dot 6 p q = 0) := by
  simp [raw_closed, FunctionSpace.dofs, sample_space, dot_eq_sum, Finset.sum_range_succ]

theorem sample_raw_norm : ∀ v ∈ raw_closed (sample_space K), dot 6 v v = 2 := by
  simp [raw_closed, FunctionSpace.dofs, sample_space, dot_eq_sum, Finset.sum_range_succ]
  norm_num

end orthogonal_input

section results

variable [LinearOrderedField K]

theorem getD_mem (basis : List (Vec K)) (i : Nat) (hi : i < basis.length) :
    basis.getD i zero_vec ∈ basis := by
  rw [List.getD_eq_getElem _ _ hi]
  exact List.getElem_mem hi

/-- An orthonormal set read by indices. -/
theorem orthonormal_set_index (n : Nat) (basis : List (Vec K)) (h : orthonormal_set n basis) :
    (∀ i j, i < basis.length → j < basis.length → i ≠ j →
      dot n (basis.getD i zero_vec) (basis.getD j zero_vec) = 0) ∧
    (∀ i, i < basis.length → dot n (basis.getD i zero_vec) (basis.getD i zero_vec) = 1) := by
  constructor
  · intro i j hi hj hij
    rw [List.getD_eq_getElem _ _ hi, List.getD_eq_getElem _ _ hj]
    have hp := List.pairwise_iff_getElem.1 h.2
    rcases Nat.lt_or_gt_of_ne hij with hlt | hgt
    · exact hp i j hi hj hlt
    · rw [dot_comm]
      exact hp j i hj hi hgt
  · intro i hi
    exact h.1 _ (getD_mem basis i hi)

/-- A successful run of the builder: the raw vectors are those of the closed
form and the basis set is their orthonormalisation. -/
theorem build_ok_inv (sqrt : K → K) (tol : K) (V : FunctionSpace K) (basis : List (Vec K))
    (h : build_near_nullspace sqrt tol V = .ok basis) :
    3 ≤ V.components.length ∧
      orthonormalize_from sqrt tol V.size [] (raw_closed V) = .ok basis := by
  unfold build_near_nullspace at h
  cases hr : raw_vectors V with
  | error e => rw [hr] at h; cases h
  | ok raw =>
    rw [hr] at h
    obtain ⟨h3, hraw⟩ := raw_vectors_inv V raw hr
    subst hraw
    exact ⟨h3, h⟩

theorem build_eq (sqrt : K → K) (tol : K) (V : FunctionSpace K)
    (h : 3 ≤ V.components.length) :
    build_near_nullspace sqrt tol V
      = orthonormalize_from sqrt tol V.size [] (raw_closed V) := by
  unfold build_near_nullspace
  rw [raw_vectors_ok V h]
  rfl

theorem build_orthonormal (sqrt : K → K) (tol : K) (hs : exact_sqrt sqrt) (htol : 0 < tol)
    (V : FunctionSpace K) (basis : List (Vec K))
    (h : build_near_nullspace sqrt tol V = .ok basis) :
    orthonormal_set V.size basis ∧ basis.length = 6 := by
  obtain ⟨_, hb⟩ := build_ok_inv sqrt tol V basis h
  have := orthonormalize_from_orthonormal sqrt tol hs htol V.size (raw_closed V) [] basis
    (orthonormal_set_nil V.size) hb
  exact ⟨this.1, by rw [this.2]; rfl⟩

theorem real_sqrt_exact : exact_sqrt Real.sqrt :=
  fun a ha => ⟨Real.sqrt_nonneg a, Real.mul_self_sqrt ha⟩

theorem sample_build :
    build_near_nullspace Real.sqrt (1 / 10 ^ 10) (sample_space ℝ)
      = .ok (normalized Real.sqrt 6 (raw_closed (sample_space ℝ))) := by
  rw [build_eq _ _ _ (by decide)]
  have := orthonormalize_from_of_orthogonal Real.sqrt (1 / 10 ^ 10) 6
    (raw_closed (sample_space ℝ)) [] sample_raw_pairwise (fun q hq => by cases hq) ?_
  · simpa using this
  · intro v hv
    unfold norm
    rw [sample_raw_norm v hv, not_lt]
    have h1 : (1 : ℝ) ≤ Real.sqrt 2 := by
      rw [show (1 : ℝ) = Real.sqrt 1 by simp]
      exact Real.sqrt_le_sqrt (by norm_num)
    have h2 : (1 : ℝ) / 10 ^ 10 ≤ 1 := by norm_num
    linarith

end results

section spans

variable [LinearOrderedField K]

theorem axpy_eq (a : K) (x y : Vec K) : axpy a x y = y + a • x := by
  funext i
  simp [axpy]

theorem divide_eq (v : Vec K) (a : K) : divide v a = a⁻¹ • v := by
  funext i
  simp [divide, div_eq_inv_mul]

/-- The inner loop stays in any subspace that holds the vector and the
vectors it is orthogonalised against. -/
theorem orthogonalize_mem (S : Submodule K (Vec K)) (n : Nat) (qs : List (Vec K)) (v : Vec K)
    (hv : v ∈ S) (hqs : ∀ q ∈ qs, q ∈ S) : orthogonalize n v qs ∈ S := by
  induction qs generalizing v with
  | nil => exact hv
  | cons p ps ih =>
    rw [orthogonalize]
    apply ih
    · rw [axpy_eq]
      exact S.add_mem hv (S.smul_mem _ (hqs p (List.mem_cons_self _ _)))
    · exact fun r hr => hqs r (List.mem_cons_of_mem _ hr)

/-- The inner loop changes a vector by a combination of the vectors it is
orthogonalised against. -/
theorem orthogonalize_sub_mem (S : Submodule K (Vec K)) (n : Nat) (qs : List (Vec K))
    (v : Vec K) (hqs : ∀ q ∈ qs, q ∈ S) : orthogonalize n v qs - v ∈ S := by
  induction qs generalizing v with
  | nil => simp [orthogonalize]
  | cons p ps ih =>
    rw [orthogonalize]
    have h1 := ih (axpy (-(dot n v p)) p v) (fun r hr => hqs r (List.mem_cons_of_mem _ hr))
    have h2 : axpy (-(dot n v p)) p v - v ∈ S := by
      rw [axpy_eq, add_sub_cancel_left]
      exact S.smul_mem _ (hqs p (List.mem_cons_self _ _))
    have := S.add_mem h1 h2
    simpa using this

/-- Every vector of a returned basis set lies in any subspace that holds the
vectors already treated and the vectors to treat. -/
theorem orthonormalize_from_mem (S : Submodule K (Vec K)) (sqrt : K → K) (tol : K) (n : Nat)
    (todo done basis : List (Vec K)) (hdone : ∀ q ∈ done, q ∈ S) (htodo : ∀ v ∈ todo, v ∈ S)
    (h : orthonormalize_from sqrt tol n done todo = .ok basis) : ∀ b ∈ basis, b ∈ S := by
  induction todo generalizing done with
  | nil =>
    rw [orthonormalize_from] at h
    cases h
    exact hdone
  | cons v rest ih =>
    rw [orthonormalize_from] at h
    split at h
    · cases h
    · refine ih _ ?_ (fun u hu => htodo u (List.mem_cons_of_mem _ hu)) h
      intro q hq
      rcases List.mem_append.1 hq with hq | hq
      · exact hdone q hq
      · rw [List.mem_singleton.1 hq, divide_eq]
        exact S.smul_mem _ (orthogonalize_mem S n done v (htodo v (List.mem_cons_self _ _)) hdone)

/-- A reported degeneracy: the vector whose norm failed the test is a vector
of the input changed by a combination of the vectors before it. -/
theorem orthonormalize_from_degenerate (sqrt : K → K) (tol : K) (n : Nat)
    (todo done : List (Vec K)) (i : Nat) (nrm : K)
    (h : orthonormalize_from sqrt tol n done todo = .error (.degenerate i nrm)) :
    ∃ pre v post w, todo = pre ++ v :: post ∧ i = done.length + pre.length ∧
      nrm = norm sqrt n w ∧
      w - v ∈ Submodule.span K ({q | q ∈ done} ∪ {u | u ∈ pre}) := by
  induction todo generalizing done with
  | nil => rw [orthonormalize_from] at h; cases h
  | cons v rest ih =>
    rw [orthonormalize_from] at h
    split at h
    · injection h with h
      injection h with h1 h2
      refine ⟨[], v, rest, orthogonalize n v done, rfl, by simp [h1], h2.symm, ?_⟩
      apply orthogonalize_sub_mem
      intro q hq
      exact Submodule.subset_span (Or.inl hq)
    · obtain ⟨pre, u, post, w, hsplit, hi, hn, hw⟩ := ih _ h
      refine ⟨v :: pre, u, post, w, by rw [hsplit]; rfl, ?_, hn, ?_⟩
      · rw [hi]; simp; omega
      · refine Submodule.span_le.2 ?_ hw
        rintro z (hz | hz)
        · rcases List.mem_append.1 hz with hz | hz
          · exact Submodule.subset_span (Or.inl hz)
          · rw [List.mem_singleton.1 hz, divide_eq]
            apply Submodule.smul_mem
            apply orthogonalize_mem
            · exact Submodule.subset_span (Or.inr (List.mem_cons_self _ _))
            · exact fun q hq => Submodule.subset_span (Or.inl hq)
        · exact Submodule.subset_span (Or.inr (List.mem_cons_of_mem _ hz))

end spans

section independence

variable [LinearOrderedField K]

theorem dot_eq_sum_fin (n : Nat) (v w : Vec K) :
    dot n v w = ∑ d : Fin n, v d * w d := by
  rw [dot_eq_sum]
  exact Finset.sum_range (fun i => v i * w i)

/-- The vectors of an orthonormal set are linearly independent. -/
theorem rows_independent_of_orthonormal (n m : Nat) (basis : List (Vec K))
    (hlen : basis.length = m) (h : orthonormal_set n basis) :
    LinearIndependent K (rows n m basis) := by
  obtain ⟨hpair, hunit⟩ := orthonormal_set_index n basis h
  rw [hlen] at hpair hunit
  rw [Fintype.linearIndependent_iff]
  intro g hg j
  have hd : ∀ d : Fin n, ∑ i : Fin m, g i * basis.getD i zero_vec d = 0 := by
    intro d
    have := congrFun hg d
    simpa [rows, Finset.sum_apply] using this
  have hsum : ∑ d : Fin n, (∑ i : Fin m, g i * basis.getD i zero_vec d)
      * basis.getD j zero_vec d = 0 := by
    apply Finset.sum_eq_zero
    intro d _
    rw [hd d, zero_mul]
  have hswap : ∑ d : Fin n, (∑ i : Fin m, g i * basis.getD i zero_vec d)
      * basis.getD j zero_vec d
      = ∑ i : Fin m, g i * dot n (basis.getD i zero_vec) (basis.getD j zero_vec) := by
    simp only [Finset.sum_mul, dot_eq_sum_fin, Finset.mul_sum]
    rw [Finset.sum_comm]
    exact Finset.sum_congr rfl (fun i _ => Finset.sum_congr rfl (fun d _ => by ring))
  rw [hswap] at hsum
  rw [Finset.sum_eq_single j] at hsum
  · rw [hunit j j.2, mul_one] at hsum
    exact hsum
  · intro i _ hij
    rw [hpair i j i.2 j.2 (fun h => hij (Fin.ext h)), mul_zero]
  · intro hj
    exact absurd (Finset.mem_univ j) hj

/-- Reading the entries below `n` sends the span of a family into the span of
its rows. -/
theorem rows_mem_span (n m : Nat) (raw : List (Vec K)) (b : Vec K)
    (hb : b ∈ Submodule.span K (Set.range (fun i : Fin m => raw.getD i zero_vec))) :
    (fun d : Fin n => b d) ∈ Submodule.span K (Set.range (rows n m raw)) := by
  have h := Submodule.apply_mem_span_image_of_mem_span
    (LinearMap.funLeft K K (fun d : Fin n => (d : Nat))) hb
  rw [← Set.range_comp] at h
  exact h

/-- Six independent vectors in the span of six vectors: the six spanning
vectors are independent. -/
theorem independent_of_span (n m : Nat) (basis raw : List (Vec K))
    (hind : LinearIndependent K (rows n m basis))
    (hspan : ∀ i, rows n m basis i ∈ Submodule.span K (Set.range (rows n m raw))) :
    LinearIndependent K (rows n m raw) := by
  rw [linearIndependent_iff_card_eq_finrank_span]
  have hle : Submodule.span K (Set.range (rows n m basis))
      ≤ Submodule.span K (Set.range (rows n m raw)) := by
    apply Submodule.span_le.2
    rintro _ ⟨i, rfl⟩
    exact hspan i
  have h1 := Submodule.finrank_mono hle
  have h2 : Module.finrank K (Submodule.span K (Set.range (rows n m basis)))
      = Fintype.card (Fin m) := finrank_span_eq_card hind
  have h3 := finrank_range_le_card (R := K) (rows n m raw)
  unfold Set.finrank at h3 ⊢
  omega

end independence

section dependence

variable [LinearOrderedField K]

theorem mem_span_family (m : Nat) (raw : List (Vec K)) (hlen : raw.length = m) :
    ∀ v ∈ raw, v ∈ Submodule.span K (Set.range (fun i : Fin m => raw.getD i zero_vec)) := by
  intro v hv
  obtain ⟨i, hi, rfl⟩ := List.getElem_of_mem hv
  apply Submodule.subset_span
  refine ⟨⟨i, by omega⟩, ?_⟩
  simp only []
  rw [List.getD_eq_getElem _ _ hi]

/-- The vectors of a returned basis set are combinations of the raw
vectors. -/
theorem build_mem_span (sqrt : K → K) (tol : K) (V : FunctionSpace K) (basis : List (Vec K))
    (h : build_near_nullspace sqrt tol V = .ok basis) :
    ∀ b ∈ basis,
      b ∈ Submodule.span K (Set.range (fun i : Fin 6 => (raw_closed V).getD i zero_vec)) := by
  obtain ⟨_, hb⟩ := build_ok_inv sqrt tol V basis h
  exact orthonormalize_from_mem _ sqrt tol V.size (raw_closed V) [] basis
    (fun q hq => by cases hq) (mem_span_family 6 (raw_closed V) rfl) hb

/-- A successful run shows that the raw vectors are linearly independent. -/
theorem raw_independent_of_build (sqrt : K → K) (tol : K) (hs : exact_sqrt sqrt)
    (htol : 0 < tol) (V : FunctionSpace K) (basis : List (Vec K))
    (h : build_near_nullspace sqrt tol V = .ok basis) :
    LinearIndependent K (rows V.size 6 (raw_closed V)) := by
  obtain ⟨hon, hlen⟩ := build_orthonormal sqrt tol hs htol V basis h
  apply independent_of_span V.size 6 basis (raw_closed V)
    (rows_independent_of_orthonormal V.size 6 basis hlen hon)
  intro i
  exact rows_mem_span V.size 6 (raw_closed V) _
    (build_mem_span sqrt tol V basis h _ (getD_mem basis i (by rw [hlen]; exact i.2)))

theorem build_error_form (sqrt : K → K) (tol : K) (V : FunctionSpace K)
    (h3 : 3 ≤ V.components.length) (e : Error K)
    (h : build_near_nullspace sqrt tol V = .error e) :
    ∃ i nrm, e = .degenerate i nrm ∧ i < 6 ∧ nrm < tol := by
  rw [build_eq sqrt tol V h3] at h
  obtain ⟨i, nrm, he, hlt, _, hi⟩ := orthonormalize_from_error sqrt tol V.size _ _ e h
  exact ⟨i, nrm, he, by simpa [raw_closed] using hi, hlt⟩

theorem origin_raw_dependent :
    ¬ LinearIndependent K (rows (origin_space K).size 6 (raw_closed (origin_space K))) := by
  intro h
  apply h.ne_zero ⟨3, by decide⟩
  funext d
  simp [rows, raw_closed, origin_space]

end dependence

section rigid_modes

variable [LinearOrderedField K]

/-- A combination of the six raw vectors, read at a dof of component `k`, is
the component `k` of a rigid-body displacement at the coordinates of the
dof. -/
theorem combination_at_dof (V : FunctionSpace K) (hsep : V.separate) (g : Fin 6 → K)
    (k d : Nat) (hk : k < 3) (hd : d ∈ V.dofs k) :
    ∑ i : Fin 6, g i * (raw_closed V).getD i zero_vec d
      = rigid (translation_of g) (rotation_of g) (V.x d) k := by
  have h0 : d ∈ V.dofs 0 → d ∉ V.dofs 1 ∧ d ∉ V.dofs 2 := fun hd =>
    ⟨hsep 0 1 d (by decide) hd, hsep 0 2 d (by decide) hd⟩
  have h1 : d ∈ V.dofs 1 → d ∉ V.dofs 0 ∧ d ∉ V.dofs 2 := fun hd =>
    ⟨hsep 1 0 d (by decide) hd, hsep 1 2 d (by decide) hd⟩
  have h2 : d ∈ V.dofs 2 → d ∉ V.dofs 0 ∧ d ∉ V.dofs 1 := fun hd =>
    ⟨hsep 2 0 d (by decide) hd, hsep 2 1 d (by decide) hd⟩
  have hcases : k = 0 ∨ k = 1 ∨ k = 2 := by omega
  have e3 : ((3 : Fin 6) : Nat) = 3 := rfl
  have e4 : ((4 : Fin 6) : Nat) = 4 := rfl
  have e5 : ((5 : Fin 6) : Nat) = 5 := rfl
  rw [Fin.sum_univ_six]
  rcases hcases with rfl | rfl | rfl
  · simp [raw_closed, hd, (h0 hd).1, (h0 hd).2, rigid, cross, translation_of, rotation_of,
      e3, e4, e5]
    ring
  · simp [raw_closed, hd, (h1 hd).1, (h1 hd).2, rigid, cross, translation_of, rotation_of,
      e3, e4, e5]
    ring
  · simp [raw_closed, hd, (h2 hd).1, (h2 hd).2, rigid, cross, translation_of, rotation_of,
      e3, e4, e5]
    ring

end rigid_modes

section raw_independence

variable [LinearOrderedField K]

/-- A rotation whose field vanishes along two edges that are not parallel is
zero. -/
theorem rotation_zero (w u v : Nat → K)
    (hu : ∀ k, k < 3 → cross w u k = 0) (hv : ∀ k, k < 3 → cross w v k = 0)
    (hm : ∃ k, k < 3 ∧ cross u v k ≠ 0) : w 0 = 0 ∧ w 1 = 0 ∧ w 2 = 0 := by
  have hu0 : w 1 * u 2 - w 2 * u 1 = 0 := hu 0 (by decide)
  have hu1 : w 2 * u 0 - w 0 * u 2 = 0 := hu 1 (by decide)
  have hu2 : w 0 * u 1 - w 1 * u 0 = 0 := hu 2 (by decide)
  have hv0 : w 1 * v 2 - w 2 * v 1 = 0 := hv 0 (by decide)
  have hv1 : w 2 * v 0 - w 0 * v 2 = 0 := hv 1 (by decide)
  have hv2 : w 0 * v 1 - w 1 * v 0 = 0 := hv 2 (by decide)
  have hdot : w 0 * cross u v 0 + w 1 * cross u v 1 + w 2 * cross u v 2 = 0 := by
    simp only [cross]
    linear_combination v 0 * hu0 + v 1 * hu1 + v 2 * hu2
  have hx0 : w 1 * cross u v 2 - w 2 * cross u v 1 = 0 := by
    simp only [cross]
    linear_combination v 2 * hu1 - v 1 * hu2 - u 2 * hv1 + u 1 * hv2
  have hx1 : w 2 * cross u v 0 - w 0 * cross u v 2 = 0 := by
    simp only [cross]
    linear_combination v 0 * hu2 - v 2 * hu0 - u 0 * hv2 + u 2 * hv0
  have hx2 : w 0 * cross u v 1 - w 1 * cross u v 0 = 0 := by
    simp only [cross]
    linear_combination v 1 * hu0 - v 0 * hu1 - u 1 * hv0 + u 0 * hv1
  have hpos : 0 < cross u v 0 * cross u v 0 + cross u v 1 * cross u v 1
      + cross u v 2 * cross u v 2 := by
    obtain ⟨k, hk, hne⟩ := hm
    have hcases : k = 0 ∨ k = 1 ∨ k = 2 := by omega
    have n0 := mul_self_nonneg (cross u v 0)
    have n1 := mul_self_nonneg (cross u v 1)
    have n2 := mul_self_nonneg (cross u v 2)
    rcases hcases with rfl | rfl | rfl
    · have := mul_self_pos.2 hne; linarith
    · have := mul_self_pos.2 hne; linarith
    · have := mul_self_pos.2 hne; linarith
  have e0 : w 0 * (cross u v 0 * cross u v 0 + cross u v 1 * cross u v 1
      + cross u v 2 * cross u v 2) = 0 := by
    linear_combination cross u v 1 * hx2 - cross u v 2 * hx1 + cross u v 0 * hdot
  have e1 : w 1 * (cross u v 0 * cross u v 0 + cross u v 1 * cross u v 1
      + cross u v 2 * cross u v 2) = 0 := by
    linear_combination cross u v 2 * hx0 - cross u v 0 * hx2 + cross u v 1 * hdot
  have e2 : w 2 * (cross u v 0 * cross u v 0 + cross u v 1 * cross u v 1
      + cross u v 2 * cross u v 2) = 0 := by
    linear_combination cross u v 0 * hx1 - cross u v 1 * hx0 + cross u v 2 * hdot
  exact ⟨(mul_eq_zero.1 e0).resolve_right (ne_of_gt hpos),
    (mul_eq_zero.1 e1).resolve_right (ne_of_gt hpos),
    (mul_eq_zero.1 e2).resolve_right (ne_of_gt hpos)⟩

theorem cross_sub (w p q : Nat → K) (k : Nat) :
    cross w (fun j => q j - p j) k = cross w q k - cross w p k := by
  rcases k with _ | _ | _ | k <;> simp [cross] <;> ring

theorem rigid_congr (a w p q : Nat → K) (k : Nat) (h : ∀ j, j < 3 → p j = q j) :
    rigid a w p k = rigid a w q k := by
  have h0 := h 0 (by decide)
  have h1 := h 1 (by decide)
  have h2 := h 2 (by decide)
  rcases k with _ | _ | _ | k <;> simp [rigid, cross, h0, h1, h2]

/-- A rigid-body displacement that vanishes at three points that are not on
one line is zero. -/
theorem rigid_zero (a w P Q R : Nat → K) (hn : noncollinear P Q R)
    (hP : ∀ k, k < 3 → rigid a w P k = 0) (hQ : ∀ k, k < 3 → rigid a w Q k = 0)
    (hR : ∀ k, k < 3 → rigid a w R k = 0) :
    (w 0 = 0 ∧ w 1 = 0 ∧ w 2 = 0) ∧ (a 0 = 0 ∧ a 1 = 0 ∧ a 2 = 0) := by
  have hw := rotation_zero w (fun j => Q j - P j) (fun j => R j - P j)
    (fun k hk => by
      rw [cross_sub]
      have h1 := hP k hk
      have h2 := hQ k hk
      unfold rigid at h1 h2
      linear_combination h2 - h1)
    (fun k hk => by
      rw [cross_sub]
      have h1 := hP k hk
      have h2 := hR k hk
      unfold rigid at h1 h2
      linear_combination h2 - h1) hn
  refine ⟨hw, ?_⟩
  obtain ⟨w0, w1, w2⟩ := hw
  have h0 := hP 0 (by decide)
  have h1 := hP 1 (by decide)
  have h2 := hP 2 (by decide)
  simp only [rigid, cross, w0, w1, w2] at h0 h1 h2
  refine ⟨?_, ?_, ?_⟩
  · linear_combination h0
  · linear_combination h1
  · linear_combination h2

end raw_independence

section raw_rank

variable [LinearOrderedField K]

/-- In a space whose points carry a dof of each component and include three
points that are not on one line, the six raw vectors are linearly
independent. -/
theorem raw_independent (V : FunctionSpace K) (hsep : V.separate) (hrange : V.in_range)
    (hall : V.carries_all) (hthree : V.three_noncollinear) :
    LinearIndependent K (rows V.size 6 (raw_closed V)) := by
  rw [Fintype.linearIndependent_iff]
  intro g hg
  have hdof : ∀ k, k < 3 → ∀ d ∈ V.dofs k,
      rigid (translation_of g) (rotation_of g) (V.x d) k = 0 := by
    intro k hk d hd
    rw [← combination_at_dof V hsep g k d hk hd]
    have := congrFun hg ⟨d, hrange k hk d hd⟩
    simpa [rows, Finset.sum_apply] using this
  have hpoint : ∀ k0, k0 < 3 → ∀ d0 ∈ V.dofs k0, ∀ k, k < 3 →
      rigid (translation_of g) (rotation_of g) (V.x d0) k = 0 := by
    intro k0 hk0 d0 hd0 k hk
    obtain ⟨d2, hd2, hx⟩ := hall k0 hk0 d0 hd0 k hk
    rw [← rigid_congr _ _ (V.x d2) (V.x d0) k hx]
    exact hdof k hk d2 hd2
  obtain ⟨k1, d1, k2, d2, k3, d3, hk1, hd1, hk2, hd2, hk3, hd3, hn⟩ := hthree
  obtain ⟨⟨w0, w1, w2⟩, a0, a1, a2⟩ := rigid_zero (translation_of g) (rotation_of g) _ _ _ hn
    (hpoint k1 hk1 d1 hd1) (hpoint k2 hk2 d2 hd2) (hpoint k3 hk3 d3 hd3)
  intro i
  fin_cases i
  · exact a0
  · exact a1
  · exact a2
  · exact w2
  · exact w1
  · exact w0

/-- When the raw vectors are linearly independent and the arithmetic is exact,
a reported degeneracy never is a zero norm. -/
theorem degenerate_norm_pos (sqrt : K → K) (tol : K) (hs : exact_sqrt sqrt)
    (V : FunctionSpace K) (h3 : 3 ≤ V.components.length)
    (hind : LinearIndependent K (rows V.size 6 (raw_closed V))) (i : Nat) (nrm : K)
    (h : build_near_nullspace sqrt tol V = .error (.degenerate i nrm)) : 0 < nrm := by
  rw [build_eq sqrt tol V h3] at h
  obtain ⟨pre, v, post, w, hsplit, hi, hn, hw⟩ :=
    orthonormalize_from_degenerate sqrt tol V.size _ _ i nrm h
  have hnn : 0 ≤ nrm := by
    rw [hn]
    exact (hs _ (dot_self_nonneg V.size w)).1
  rcases lt_or_eq_of_le hnn with hlt | heq
  · exact hlt
  exfalso
  have hw0 : ∀ d, d < V.size → w d = 0 := by
    apply dot_self_eq_zero
    apply sqrt_eq_zero sqrt hs _ (dot_self_nonneg V.size w)
    unfold norm at hn
    rw [← hn, ← heq]
  have hlen : pre.length + 1 + post.length = 6 := by
    have := congrArg List.length hsplit
    simp [raw_closed] at this
    omega
  have hipre : pre.length < 6 := by omega
  have hv : (raw_closed V).getD pre.length zero_vec = v := by
    rw [hsplit, List.getD_eq_getElem?_getD, List.getElem?_append_right (le_refl _)]
    simp
  have hpre : ∀ u ∈ pre, ∃ j : Fin 6, (j : Nat) < pre.length ∧
      (raw_closed V).getD j zero_vec = u := by
    intro u hu
    obtain ⟨j, hj, rfl⟩ := List.getElem_of_mem hu
    refine ⟨⟨j, by omega⟩, hj, ?_⟩
    rw [hsplit, List.getD_eq_getElem?_getD, List.getElem?_append_left hj]
    simp [hj]
  have hmem := Submodule.apply_mem_span_image_of_mem_span
    (LinearMap.funLeft K K (fun d : Fin V.size => (d : Nat))) hw
  have hrow : rows V.size 6 (raw_closed V) ⟨pre.length, hipre⟩
      ∈ Submodule.span K
        (Set.image (rows V.size 6 (raw_closed V)) {j : Fin 6 | (j : Nat) < pre.length}) := by
    have hsub : Submodule.span K (Set.image (LinearMap.funLeft K K (fun d : Fin V.size => (d : Nat)))
        ({q | q ∈ ([] : List (Vec K))} ∪ {u | u ∈ pre}))
        ≤ Submodule.span K
          (Set.image (rows V.size 6 (raw_closed V)) {j : Fin 6 | (j : Nat) < pre.length}) := by
      apply Submodule.span_mono
      rintro _ ⟨u, hu, rfl⟩
      rcases hu with hu | hu
      · cases hu
      · obtain ⟨j, hj, rfl⟩ := hpre u hu
        exact ⟨j, hj, rfl⟩
    have h1 := hsub hmem
    have h2 : rows V.size 6 (raw_closed V) ⟨pre.length, hipre⟩
        = -(LinearMap.funLeft K K (fun d : Fin V.size => (d : Nat))) (w - v) := by
      funext d
      have e1 : rows V.size 6 (raw_closed V) ⟨pre.length, hipre⟩ d = v d := by
        show (raw_closed V).getD pre.length zero_vec d = v d
        rw [hv]
      rw [e1]
      simp [LinearMap.funLeft, hw0 d d.2]
    rw [h2]
    exact Submodule.neg_mem _ h1
  exact hind.not_mem_span_image (s := {j : Fin 6 | (j : Nat) < pre.length})
    (x := ⟨pre.length, hipre⟩) (by simp) hrow

end raw_rank

section tolerance

variable [LinearOrderedField K]

/-- A vector of the input whose squared norm is below the square of the
tolerance makes the orthonormalisation fail. -/
theorem orthonormalize_from_small (sqrt : K → K) (tol : K) (hs : exact_sqrt sqrt)
    (htol : 0 < tol) (n : Nat) (todo done : List (Vec K))
    (hdone : ∀ q ∈ done, dot n q q = 1) (v : Vec K) (hv : v ∈ todo)
    (hsmall : dot n v v < tol * tol) :
    ∃ e, orthonormalize_from sqrt tol n done todo = .error e := by
  induction todo generalizing done with
  | nil => cases hv
  | cons u rest ih =>
    rw [orthonormalize_from]
    split
    · exact ⟨_, rfl⟩
    · rename_i hn
      rcases List.mem_cons.1 hv with rfl | hrest
      · exfalso
        apply hn
        unfold norm
        apply sqrt_lt sqrt hs _ tol (dot_self_nonneg n _) htol
        exact lt_of_le_of_lt (orthogonalize_norm_le n done v hdone) hsmall
      · apply ih _ _ hrest
        intro q hq
        rcases List.mem_append.1 hq with hq | hq
        · exact hdone q hq
        · rw [List.mem_singleton.1 hq]
          apply dot_self_divide sqrt hs
          intro h0
          rw [h0] at hn
          exact hn htol

theorem triangle_space_separate (s : K) : (triangle_space K s).separate := by
  intro i j d hij hi hj
  match i, j with
  | 0, 0 => exact hij rfl
  | 1, 1 => exact hij rfl
  | 2, 2 => exact hij rfl
  | 0, 1 => simp [FunctionSpace.dofs, triangle_space] at hi hj; omega
  | 0, 2 => simp [FunctionSpace.dofs, triangle_space] at hi hj; omega
  | 1, 0 => simp [FunctionSpace.dofs, triangle_space] at hi hj; omega
  | 1, 2 => simp [FunctionSpace.dofs, triangle_space] at hi hj; omega
  | 2, 0 => simp [FunctionSpace.dofs, triangle_space] at hi hj; omega
  | 2, 1 => simp [FunctionSpace.dofs, triangle_space] at hi hj; omega
  | _ + 3, _ => simp [FunctionSpace.dofs, triangle_space] at hi
  | 0, _ + 3 => simp [FunctionSpace.dofs, triangle_space] at hj
  | 1, _ + 3 => simp [FunctionSpace.dofs, triangle_space] at hj
  | 2, _ + 3 => simp [FunctionSpace.dofs, triangle_space] at hj

theorem triangle_space_in_range (s : K) : (triangle_space K s).in_range := by
  intro k hk d hd
  have hcases : k = 0 ∨ k = 1 ∨ k = 2 := by omega
  rcases hcases with rfl | rfl | rfl <;>
    simp [FunctionSpace.dofs, triangle_space] at hd ⊢ <;> omega

theorem triangle_space_carries_all (s : K) : (triangle_space K s).carries_all := by
  intro k hk d hd k2 hk2
  have hcases : k = 0 ∨ k = 1 ∨ k = 2 := by omega
  have hd3 : ∃ p, p < 3 ∧ d = 3 * p + k := by
    rcases hcases with rfl | rfl | rfl <;>
      simp [FunctionSpace.dofs, triangle_space] at hd <;>
      rcases hd with rfl | rfl | rfl
    · exact ⟨0, by decide, rfl⟩
    · exact ⟨1, by decide, rfl⟩
    · exact ⟨2, by decide, rfl⟩
    · exact ⟨0, by decide, rfl⟩
    · exact ⟨1, by decide, rfl⟩
    · exact ⟨2, by decide, rfl⟩
    · exact ⟨0, by decide, rfl⟩
    · exact ⟨1, by decide, rfl⟩
    · exact ⟨2, by decide, rfl⟩
  obtain ⟨p, hp, rfl⟩ := hd3
  refine ⟨3 * p + k2, ?_, ?_⟩
  · have hcases2 : k2 = 0 ∨ k2 = 1 ∨ k2 = 2 := by omega
    have hp3 : p = 0 ∨ p = 1 ∨ p = 2 := by omega
    rcases hcases2 with rfl | rfl | rfl <;> rcases hp3 with rfl | rfl | rfl <;>
      simp [FunctionSpace.dofs, triangle_space]
  · intro j _
    have e1 : (3 * p + k2) / 3 = p := by omega
    have e2 : (3 * p + k) / 3 = p := by omega
    simp only [triangle_space, e1, e2]

theorem triangle_space_three (s : K) (hs : s ≠ 0) :
    (triangle_space K s).three_noncollinear := by
  refine ⟨0, 0, 0, 3, 0, 6, by decide, ?_, by decide, ?_, by decide, ?_, 2, by decide, ?_⟩
  · simp [FunctionSpace.dofs, triangle_space]
  · simp [FunctionSpace.dofs, triangle_space]
  · simp [FunctionSpace.dofs, triangle_space]
  · simp [cross, triangle_space, hs]

theorem triangle_raw_small (s : K) :
    dot 9 ((raw_closed (triangle_space K s)).getD 3 zero_vec)
      ((raw_closed (triangle_space K s)).getD 3 zero_vec) = 2 * (s * s) := by
  simp [raw_closed, FunctionSpace.dofs, triangle_space, dot_eq_sum, Finset.sum_range_succ]
  ring

end tolerance

section tiny

variable [LinearOrderedField K]

theorem three_components_of_carries (V : FunctionSpace K) (hall : V.carries_all)
    (hthree : V.three_noncollinear) : 3 ≤ V.components.length := by
  obtain ⟨k1, d1, _, _, _, _, hk1, hd1, _⟩ := hthree
  obtain ⟨d2, hd2, _⟩ := hall k1 hk1 d1 hd1 2 (by decide)
  by_contra hlt
  unfold FunctionSpace.dofs at hd2
  rw [List.getD_eq_default _ _ (by omega)] at hd2
  cases hd2

theorem tiny_build_error :
    ∃ i nrm, build_near_nullspace Real.sqrt (1 / 10 ^ 10) (triangle_space ℝ (1 / 10 ^ 11))
      = .error (.degenerate i nrm) ∧ i < 6 ∧ nrm < 1 / 10 ^ 10 := by
  have h3 : 3 ≤ (triangle_space ℝ (1 / 10 ^ 11)).components.length := by decide
  obtain ⟨e, he⟩ := orthonormalize_from_small Real.sqrt (1 / 10 ^ 10) real_sqrt_exact
    (by norm_num) 9 (raw_closed (triangle_space ℝ (1 / 10 ^ 11))) []
    (fun q hq => by cases hq) _ (getD_mem _ 3 (by decide))
    (by rw [triangle_raw_small]; norm_num)
  have hb : build_near_nullspace Real.sqrt (1 / 10 ^ 10) (triangle_space ℝ (1 / 10 ^ 11))
      = .error e := by
    rw [build_eq _ _ _ h3]
    exact he
  obtain ⟨i, nrm, hform, hi, hlt⟩ := build_error_form _ _ _ h3 e hb
  exact ⟨i, nrm, by rw [hb, hform], hi, hlt⟩

end tiny

section trace

variable [LinearOrderedField K]

/-- A norm the orthonormalisation meets either passes the test or is the norm
of the reported degeneracy. -/
theorem norms_met_cases (sqrt : K → K) (tol : K) (n : Nat) (todo done : List (Vec K)) :
    ∀ a ∈ norms_met sqrt tol n done todo,
      tol ≤ a ∨ ∃ i, orthonormalize_from sqrt tol n done todo = .error (.degenerate i a) := by
  induction todo generalizing done with
  | nil => intro a ha; simp [norms_met] at ha
  | cons v rest ih =>
    intro a ha
    rw [norms_met] at ha
    rw [orthonormalize_from]
    split at ha
    · rename_i hn
      rw [List.mem_singleton] at ha
      subst ha
      right
      exact ⟨done.length, by rw [if_pos hn]⟩
    · rename_i hn
      rw [if_neg hn]
      rcases List.mem_cons.1 ha with rfl | ha
      · left
        exact not_lt.1 hn
      · exact ih _ a ha

end trace

section raw_any

variable [Zero K] [One K] [Neg K] [Mul K]

theorem raw_vectors_some (V : FunctionSpace K) (h : 3 ≤ V.components.length) :
    ∃ raw, raw_vectors V = .ok raw ∧ raw.length = 6 := by
  unfold raw_vectors
  rw [sub_ok V 0 (by omega), sub_ok V 1 (by omega), sub_ok V 2 (by omega)]
  exact ⟨_, rfl, rfl⟩

theorem raw_vectors_length (V : FunctionSpace K) (raw : List (Vec K))
    (h : raw_vectors V = .ok raw) : raw.length = 6 := by
  by_cases h3 : 3 ≤ V.components.length
  · obtain ⟨raw2, h2, hlen⟩ := raw_vectors_some V h3
    rw [h2] at h
    rw [← Except.ok.inj h]
    exact hlen
  · exfalso
    unfold raw_vectors at h
    by_cases h0 : V.components.length ≤ 0
    · rw [sub_error V 0 h0] at h; cases h
    rw [sub_ok V 0 (by omega)] at h
    by_cases h1 : V.components.length ≤ 1
    · simp only [] at h; rw [sub_error V 1 h1] at h; cases h
    rw [sub_ok V 1 (by omega)] at h
    simp only [] at h
    rw [sub_error V 2 (by omega)] at h
    cases h

theorem raw_vectors_get (V : FunctionSpace K) (raw : List (Vec K))
    (h : raw_vectors V = .ok raw) : (raw_vectors V).toOption.getD [] = raw := by
  rw [h]
  rfl

end raw_any

section any_arithmetic

variable [Zero K] [One K] [Add K] [Mul K] [Neg K] [Div K] [LT K]
  [∀ a b : K, Decidable (a < b)]

/-- When every norm the orthonormalisation meets passes the test, a basis set
is returned, with one vector for each vector treated. -/
theorem orthonormalize_from_pass (sqrt : K → K) (tol : K) (n : Nat)
    (todo done : List (Vec K))
    (h : ∀ a ∈ norms_met sqrt tol n done todo, ¬ a < tol) :
    ∃ basis, orthonormalize_from sqrt tol n done todo = .ok basis ∧
      basis.length = done.length + todo.length := by
  induction todo generalizing done with
  | nil => exact ⟨done, by rw [orthonormalize_from], by simp⟩
  | cons v rest ih =>
    rw [norms_met] at h
    rw [orthonormalize_from]
    by_cases hn : norm sqrt n (orthogonalize n v done) < tol
    · exfalso
      rw [if_pos hn] at h
      exact h _ (List.mem_singleton.2 rfl) hn
    · rw [if_neg hn] at h ⊢
      obtain ⟨basis, hb, hlen⟩ := ih _ (fun a ha => h a (List.mem_cons_of_mem _ ha))
      refine ⟨basis, hb, ?_⟩
      rw [hlen]
      simp
      omega

/-- When some norm the orthonormalisation meets fails the test, the
degeneracy is reported, with that norm, and no basis set is returned. -/
theorem orthonormalize_from_fail (sqrt : K → K) (tol : K) (n : Nat)
    (todo done : List (Vec K))
    (h : ∃ a ∈ norms_met sqrt tol n done todo, a < tol) :
    ∃ i nrm, orthonormalize_from sqrt tol n done todo = .error (.degenerate i nrm) ∧
      nrm < tol ∧ done.length ≤ i ∧ i < done.length + todo.length := by
  induction todo generalizing done with
  | nil =>
    obtain ⟨a, ha, _⟩ := h
    simp [norms_met] at ha
  | cons v rest ih =>
    rw [norms_met] at h
    rw [orthonormalize_from]
    by_cases hn : norm sqrt n (orthogonalize n v done) < tol
    · rw [if_pos hn]
      exact ⟨done.length, _, rfl, hn, le_rfl, by simp⟩
    · rw [if_neg hn] at h ⊢
      obtain ⟨a, ha, hlt⟩ := h
      rcases List.mem_cons.1 ha with rfl | ha
      · exact absurd hlt hn
      · obtain ⟨i, nrm, he, hl, hle, hi⟩ := ih _ ⟨a, ha, hlt⟩
        refine ⟨i, nrm, he, hl, ?_, ?_⟩
        · simp at hle; omega
        · simp at hi ⊢; omega

/-- A returned basis set is the list of the normalised projections. -/
theorem orthonormalize_from_projections (sqrt : K → K) (tol : K) (n : Nat)
    (todo done basis : List (Vec K))
    (h : orthonormalize_from sqrt tol n done todo = .ok basis) :
    basis = projections sqrt n done todo := by
  induction todo generalizing done with
  | nil =>
    rw [orthonormalize_from] at h
    rw [projections]
    exact (Except.ok.inj h).symm
  | cons v rest ih =>
    rw [orthonormalize_from] at h
    rw [projections]
    split at h
    · cases h
    · exact ih _ h

/-- The builder in any arithmetic: the raw vectors, then the test of every
norm decides between six vectors and the report of a degeneracy. -/
theorem build_pass (sqrt : K → K) (tol : K) (V : FunctionSpace K) (raw : List (Vec K))
    (hraw : raw_vectors V = .ok raw)
    (h : ∀ a ∈ norms_met sqrt tol V.size [] raw, ¬ a < tol) :
    ∃ basis, build_near_nullspace sqrt tol V = .ok basis ∧ basis.length = 6 := by
  obtain ⟨basis, hb, hlen⟩ := orthonormalize_from_pass sqrt tol V.size raw [] h
  refine ⟨basis, ?_, ?_⟩
  · unfold build_near_nullspace
    rw [hraw]
    exact hb
  · rw [hlen, raw_vectors_length V raw hraw]
    rfl

theorem build_fail (sqrt : K → K) (tol : K) (V : FunctionSpace K) (raw : List (Vec K))
    (hraw : raw_vectors V = .ok raw)
    (h : ∃ a ∈ norms_met sqrt tol V.size [] raw, a < tol) :
    ∃ i nrm, build_near_nullspace sqrt tol V = .error (.degenerate i nrm) ∧
      i < 6 ∧ nrm < tol := by
  obtain ⟨i, nrm, he, hlt, _, hi⟩ := orthonormalize_from_fail sqrt tol V.size raw [] h
  refine ⟨i, nrm, ?_, ?_, hlt⟩
  · unfold build_near_nullspace
    rw [hraw]
    exact he
  · rw [raw_vectors_length V raw hraw] at hi
    simpa using hi

theorem build_pass_projections (sqrt : K → K) (tol : K) (V : FunctionSpace K)
    (raw : List (Vec K)) (hraw : raw_vectors V = .ok raw)
    (h : ∀ a ∈ norms_met sqrt tol V.size [] raw, ¬ a < tol) :
    build_near_nullspace sqrt tol V = .ok (projections sqrt V.size [] raw) := by
  obtain ⟨basis, hb, _⟩ := orthonormalize_from_pass sqrt tol V.size raw [] h
  unfold build_near_nullspace
  rw [hraw]
  show orthonormalize_from sqrt tol V.size [] raw = _
  rw [hb, orthonormalize_from_projections sqrt tol V.size raw [] basis hb]

theorem build_ok_projections (sqrt : K → K) (tol : K) (V : FunctionSpace K)
    (basis raw : List (Vec K)) (h : build_near_nullspace sqrt tol V = .ok basis)
    (hraw : raw_vectors V = .ok raw) : basis = projections sqrt V.size [] raw := by
  unfold build_near_nullspace at h
  rw [hraw] at h
  exact orthonormalize_from_projections sqrt tol V.size raw [] basis h

/-- A returned basis set: the raw vectors exist, every norm met passed the
test, and there are six vectors. -/
theorem build_ok_norms (sqrt : K → K) (tol : K) (V : FunctionSpace K) (basis : List (Vec K))
    (h : build_near_nullspace sqrt tol V = .ok basis) :
    ∃ raw, raw_vectors V = .ok raw ∧
      (∀ a ∈ norms_met sqrt tol V.size [] raw, ¬ a < tol) ∧ basis.length = 6 := by
  unfold build_near_nullspace at h
  cases hr : raw_vectors V with
  | error e => rw [hr] at h; cases h
  | ok raw =>
    rw [hr] at h
    refine ⟨raw, rfl, ?_⟩
    by_cases hall : ∀ a ∈ norms_met sqrt tol V.size [] raw, ¬ a < tol
    · obtain ⟨basis2, hb2, hlen⟩ := orthonormalize_from_pass sqrt tol V.size raw [] hall
      have h2 : orthonormalize_from sqrt tol V.size [] raw = .ok basis := h
      rw [h2] at hb2
      rw [Except.ok.inj hb2, hlen, raw_vectors_length V raw hr]
      exact ⟨hall, rfl⟩
    · exfalso
      have hex : ∃ a ∈ norms_met sqrt tol V.size [] raw, a < tol := by
        by_contra hno
        apply hall
        intro a ha hlt
        exact hno ⟨a, ha, hlt⟩
      obtain ⟨i, nrm, he, _⟩ := orthonormalize_from_fail sqrt tol V.size raw [] hex
      have h2 : orthonormalize_from sqrt tol V.size [] raw = .ok basis := h
      rw [h2] at he
      cases he

end any_arithmetic

section doubles

theorem line_raw_ok : raw_vectors line_e7 = .ok line_raw := by
  obtain ⟨raw, hraw, _⟩ := raw_vectors_some line_e7 (by decide)
  rw [hraw]
  unfold line_raw
  rw [hraw]
  rfl

theorem origin_raw_ok : raw_vectors (origin_space Double) = .ok origin_raw := by
  obtain ⟨raw, hraw, _⟩ := raw_vectors_some (origin_space Double) (by decide)
  rw [hraw]
  unfold origin_raw
  rw [hraw]
  rfl

/-- In double precision every norm met on the line space at 1e7 passes the
test of the tolerance. -/
theorem line_norms_pass :
    ∀ a ∈ norms_met Double.sqrt tolerance 6 [] line_raw, ¬ a < tolerance := by
  decide!

theorem line_build :
    build_near_nullspace Double.sqrt tolerance line_e7
      = .ok (projections Double.sqrt 6 [] line_raw) :=
  build_pass_projections Double.sqrt tolerance line_e7 line_raw line_raw_ok line_norms_pass

/-- In double precision the basis set returned on the line space at 1e7 has
two vectors whose inner product exceeds 9/10 and a vector whose inner product
with itself is not 1. -/
theorem line_check :
    (9 : ℚ) / 10 < dot 6 (Double.vals ((projections Double.sqrt 6 [] line_raw).getD 4 zero_vec))
        (Double.vals ((projections Double.sqrt 6 [] line_raw).getD 5 zero_vec)) ∧
      dot 6 (Double.vals ((projections Double.sqrt 6 [] line_raw).getD 0 zero_vec))
        (Double.vals ((projections Double.sqrt 6 [] line_raw).getD 0 zero_vec)) ≠ 1 := by
  decide!

/-- The rotation modes of the line space add up to zero, entry by entry. -/
theorem line_raw_sum :
    ∀ d, d < 6 →
      (line_raw.getD 3 zero_vec d).val + (line_raw.getD 4 zero_vec d).val
        + (line_raw.getD 5 zero_vec d).val = 0 := by
  decide!

theorem line_raw_dependent :
    ¬ LinearIndependent ℚ
      (fun (i : Fin 6) (d : Fin 6) => (line_raw.getD i zero_vec d).val) := by
  intro h
  rw [Fintype.linearIndependent_iff] at h
  have e3 : ((3 : Fin 6) : Nat) = 3 := rfl
  have e4 : ((4 : Fin 6) : Nat) = 4 := rfl
  have e5 : ((5 : Fin 6) : Nat) = 5 := rfl
  have h3 := h (fun i => if 3 ≤ (i : Nat) then 1 else 0) ?_ 3
  · simp [e3] at h3
  · funext d
    have hs := line_raw_sum d d.2
    simp [Fin.sum_univ_six, e3, e4, e5]
    exact hs

/-- In double precision too the small triangle of side 1e-11 meets a norm
below the tolerance. -/
theorem tiny_triangle_double :
    ∃ a ∈ norms_met Double.sqrt tolerance 9 []
      ((raw_vectors (triangle_space Double (Double.ofRat (1 / 10 ^ 11)))).toOption.getD []),
      a < tolerance := by
  decide!

/-- In double precision the space with all dofs at the origin meets a norm
below the tolerance. -/
theorem origin_norm_fails :
    ∃ a ∈ norms_met Double.sqrt tolerance 3 [] origin_raw, a < tolerance := by
  decide!

end doubles

section square

variable [LinearOrderedField K]

theorem square_space_separate : (square_space K).separate := by
  intro i j d hij hi hj
  match i, j with
  | 0, 0 => exact hij rfl
  | 1, 1 => exact hij rfl
  | 2, 2 => exact hij rfl
  | 0, 1 => simp [FunctionSpace.dofs, square_space] at hi hj; omega
  | 0, 2 => simp [FunctionSpace.dofs, square_space] at hi hj; omega
  | 1, 0 => simp [FunctionSpace.dofs, square_space] at hi hj; omega
  | 1, 2 => simp [FunctionSpace.dofs, square_space] at hi hj; omega
  | 2, 0 => simp [FunctionSpace.dofs, square_space] at hi hj; omega
  | 2, 1 => simp [FunctionSpace.dofs, square_space] at hi hj; omega
  | _ + 3, _ => simp [FunctionSpace.dofs, square_space] at hi
  | 0, _ + 3 => simp [FunctionSpace.dofs, square_space] at hj
  | 1, _ + 3 => simp [FunctionSpace.dofs, square_space] at hj
  | 2, _ + 3 => simp [FunctionSpace.dofs, square_space] at hj

theorem square_space_in_range : (square_space K).in_range := by
  intro k hk d hd
  have hcases : k = 0 ∨ k = 1 ∨ k = 2 := by omega
  rcases hcases with rfl | rfl | rfl <;>
    simp [FunctionSpace.dofs, square_space] at hd ⊢ <;> omega

theorem square_space_carries_all : (square_space K).carries_all := by
  intro k hk d hd k2 hk2
  have hcases : k = 0 ∨ k = 1 ∨ k = 2 := by omega
  have hd3 : ∃ p, p < 4 ∧ d = 3 * p + k := by
    rcases hcases with rfl | rfl | rfl <;>
      simp [FunctionSpace.dofs, square_space] at hd <;>
      rcases hd with rfl | rfl | rfl | rfl
    · exact ⟨0, by decide, rfl⟩
    · exact ⟨1, by decide, rfl⟩
    · exact ⟨2, by decide, rfl⟩
    · exact ⟨3, by decide, rfl⟩
    · exact ⟨0, by decide, rfl⟩
    · exact ⟨1, by decide, rfl⟩
    · exact ⟨2, by decide, rfl⟩
    · exact ⟨3, by decide, rfl⟩
    · exact ⟨0, by decide, rfl⟩
    · exact ⟨1, by decide, rfl⟩
    · exact ⟨2, by decide, rfl⟩
    · exact ⟨3, by decide, rfl⟩
  obtain ⟨p, hp, rfl⟩ := hd3
  refine ⟨3 * p + k2, ?_, ?_⟩
  · have hcases2 : k2 = 0 ∨ k2 = 1 ∨ k2 = 2 := by omega
    have hp3 : p = 0 ∨ p = 1 ∨ p = 2 ∨ p = 3 := by omega
    rcases hcases2 with rfl | rfl | rfl <;> rcases hp3 with rfl | rfl | rfl | rfl <;>
      simp [FunctionSpace.dofs, square_space]
  · intro j _
    have e1 : (3 * p + k2) / 3 = p := by omega
    have e2 : (3 * p + k) / 3 = p := by omega
    simp only [square_space, e1, e2]

theorem square_space_three : (square_space K).three_noncollinear := by
  refine ⟨0, 0, 0, 3, 0, 6, by decide, ?_, by decide, ?_, by decide, ?_, 2, by decide, ?_⟩
  · simp [FunctionSpace.dofs, square_space]
  · simp [FunctionSpace.dofs, square_space]
  · simp [FunctionSpace.dofs, square_space]
  · simp [cross, square_space]

theorem square_raw_pairwise :
    (raw_closed (square_space K)).Pairwise (fun p q => dot 12 p q = 0) := by
  simp [raw_closed, FunctionSpace.dofs, square_space, dot_eq_sum, Finset.sum_range_succ]

theorem square_raw_norm : ∀ v ∈ raw_closed (square_space K), 1 ≤ dot 12 v v := by
  simp [raw_closed, FunctionSpace.dofs, square_space, dot_eq_sum, Finset.sum_range_succ]
  norm_num

end square

section square_real

theorem square_build :
    build_near_nullspace Real.sqrt (1 / 10 ^ 10) (square_space ℝ)
      = .ok (normalized Real.sqrt 12 (raw_closed (square_space ℝ))) := by
  rw [build_eq _ _ _ (by decide)]
  have := orthonormalize_from_of_orthogonal Real.sqrt (1 / 10 ^ 10) 12
    (raw_closed (square_space ℝ)) [] square_raw_pairwise (fun q hq => by cases hq) ?_
  · simpa using this
  · intro v hv
    unfold norm
    rw [not_lt]
    have h1 : (1 : ℝ) ≤ Real.sqrt (dot 12 v v) := by
      rw [show (1 : ℝ) = Real.sqrt 1 by simp]
      exact Real.sqrt_le_sqrt (square_raw_norm v hv)
    have h2 : (1 : ℝ) / 10 ^ 10 ≤ 1 := by norm_num
    linarith

end square_real

end elastic

/-! ## The claims -/

namespace elastic

variable {K : Type}

/-- C1: before orthonormalisation, in a space with three components, basis
vector `i` (`i = 0, 1, 2`) holds 1 at every dof of component `i` and 0 at
every other dof, so it is nonzero exactly on the dofs of component `i`. -/
theorem translation_modes [Ring K] [Nontrivial K] (V : FunctionSpace K)
    (h : 3 ≤ V.components.length) :
    ∃ raw, raw_vectors V = .ok raw ∧ raw.length = 6 ∧
      ∀ i, i < 3 → ∀ d,
        (raw.getD i zero_vec d = if d ∈ V.dofs i then 1 else 0) ∧
        (raw.getD i zero_vec d ≠ 0 ↔ d ∈ V.dofs i) := by
  refine ⟨raw_closed V, raw_vectors_ok V h, rfl, ?_⟩
  intro i hi d
  have hcases : i = 0 ∨ i = 1 ∨ i = 2 := by omega
  rcases hcases with rfl | rfl | rfl
  · by_cases hd : d ∈ V.dofs 0 <;> simp [raw_closed, hd]
  · by_cases hd : d ∈ V.dofs 1 <;> simp [raw_closed, hd]
  · by_cases hd : d ∈ V.dofs 2 <;> simp [raw_closed, hd]

theorem translation_modes_witness :
    3 ≤ (sample_space ℚ).components.length ∧
    ∃ raw, raw_vectors (sample_space ℚ) = .ok raw ∧ raw.length = 6 ∧
      ∀ i, i < 3 → ∀ d,
        (raw.getD i zero_vec d = if d ∈ (sample_space ℚ).dofs i then 1 else 0) ∧
        (raw.getD i zero_vec d ≠ 0 ↔ d ∈ (sample_space ℚ).dofs i) :=
  ⟨by decide, translation_modes (sample_space ℚ) (by decide)⟩

/-- C2: before orthonormalisation, in a space with three components whose
dofs belong to one component each, at a dof of coordinate `(x0, x1, x2)`:
vector 3 holds `-1*x1` on component 0, `1*x0` on component 1 and 0 on
component 2; vector 4 holds `1*x2` on component 0, `-1*x0` on component 2 and
0 on component 1; vector 5 holds `1*x1` on component 2, `-1*x2` on component
1 and 0 on component 0.  These are the nodal values of `e_z x p`, `e_y x p`
and `e_x x p`. -/
theorem rotation_modes [Ring K] (V : FunctionSpace K)
    (h : 3 ≤ V.components.length) (hsep : V.separate) :
    ∃ raw, raw_vectors V = .ok raw ∧ ∀ d,
      (d ∈ V.dofs 0 → raw.getD 3 zero_vec d = -1 * V.x d 1 ∧
        raw.getD 4 zero_vec d = 1 * V.x d 2 ∧ raw.getD 5 zero_vec d = 0) ∧
      (d ∈ V.dofs 1 → raw.getD 3 zero_vec d = 1 * V.x d 0 ∧
        raw.getD 4 zero_vec d = 0 ∧ raw.getD 5 zero_vec d = -1 * V.x d 2) ∧
      (d ∈ V.dofs 2 → raw.getD 3 zero_vec d = 0 ∧
        raw.getD 4 zero_vec d = -1 * V.x d 0 ∧ raw.getD 5 zero_vec d = 1 * V.x d 1) ∧
      (∀ k, k < 3 → d ∈ V.dofs k →
        raw.getD 3 zero_vec d = cross (unit_axis 2) (V.x d) k ∧
        raw.getD 4 zero_vec d = cross (unit_axis 1) (V.x d) k ∧
        raw.getD 5 zero_vec d = cross (unit_axis 0) (V.x d) k) := by
  refine ⟨raw_closed V, raw_vectors_ok V h, ?_⟩
  intro d
  have h0 : d ∈ V.dofs 0 → d ∉ V.dofs 1 ∧ d ∉ V.dofs 2 := fun hd =>
    ⟨hsep 0 1 d (by decide) hd, hsep 0 2 d (by decide) hd⟩
  have h1 : d ∈ V.dofs 1 → d ∉ V.dofs 0 ∧ d ∉ V.dofs 2 := fun hd =>
    ⟨hsep 1 0 d (by decide) hd, hsep 1 2 d (by decide) hd⟩
  have h2 : d ∈ V.dofs 2 → d ∉ V.dofs 0 ∧ d ∉ V.dofs 1 := fun hd =>
    ⟨hsep 2 0 d (by decide) hd, hsep 2 1 d (by decide) hd⟩
  refine ⟨fun hd => ?_, fun hd => ?_, fun hd => ?_, fun k hk hd => ?_⟩
  · simp [raw_closed, hd, (h0 hd).1, (h0 hd).2]
  · simp [raw_closed, hd, (h1 hd).1, (h1 hd).2]
  · simp [raw_closed, hd, (h2 hd).1, (h2 hd).2]
  · have hcases : k = 0 ∨ k = 1 ∨ k = 2 := by omega
    rcases hcases with rfl | rfl | rfl
    · simp [raw_closed, hd, (h0 hd).1, (h0 hd).2, cross, unit_axis]
    · simp [raw_closed, hd, (h1 hd).1, (h1 hd).2, cross, unit_axis]
    · simp [raw_closed, hd, (h2 hd).1, (h2 hd).2, cross, unit_axis]

theorem rotation_modes_witness :
    3 ≤ (sample_space ℚ).components.length ∧ (sample_space ℚ).separate ∧
    ∃ raw, raw_vectors (sample_space ℚ) = .ok raw ∧ ∀ d,
      (d ∈ (sample_space ℚ).dofs 0 → raw.getD 3 zero_vec d = -1 * (sample_space ℚ).x d 1 ∧
        raw.getD 4 zero_vec d = 1 * (sample_space ℚ).x d 2 ∧ raw.getD 5 zero_vec d = 0) ∧
      (d ∈ (sample_space ℚ).dofs 1 → raw.getD 3 zero_vec d = 1 * (sample_space ℚ).x d 0 ∧
        raw.getD 4 zero_vec d = 0 ∧ raw.getD 5 zero_vec d = -1 * (sample_space ℚ).x d 2) ∧
      (d ∈ (sample_space ℚ).dofs 2 → raw.getD 3 zero_vec d = 0 ∧
        raw.getD 4 zero_vec d = -1 * (sample_space ℚ).x d 0 ∧
        raw.getD 5 zero_vec d = 1 * (sample_space ℚ).x d 1) ∧
      (∀ k, k < 3 → d ∈ (sample_space ℚ).dofs k →
        raw.getD 3 zero_vec d = cross (unit_axis 2) ((sample_space ℚ).x d) k ∧
        raw.getD 4 zero_vec d = cross (unit_axis 1) ((sample_space ℚ).x d) k ∧
        raw.getD 5 zero_vec d = cross (unit_axis 0) ((sample_space ℚ).x d) k) :=
  ⟨by decide, sample_space_separate ℚ,
    rotation_modes (sample_space ℚ) (by decide) (sample_space_separate ℚ)⟩

/-- C3, as amended: in any arithmetic, when `build_near_nullspace` succeeds it
returns six vectors, the normalised projections of the raw vectors, and every
norm it tested was not below the tolerance; when the arithmetic is exact (a
linearly ordered field, an exact square root, a positive tolerance) the inner
product of two different returned vectors is 0 and the norm of each is 1. -/
theorem successful_build_basis :
    (∀ (K : Type) [Zero K] [One K] [Add K] [Mul K] [Neg K] [Div K] [LT K]
        [∀ a b : K, Decidable (a < b)]
        (sqrt : K → K) (tol : K) (V : FunctionSpace K) (basis : List (Vec K)),
      build_near_nullspace sqrt tol V = .ok basis →
      basis.length = 6 ∧
      ∃ raw, raw_vectors V = .ok raw ∧ basis = projections sqrt V.size [] raw ∧
        ∀ a ∈ norms_met sqrt tol V.size [] raw, ¬ a < tol) ∧
    (∀ (F : Type) [LinearOrderedField F] (sqrt : F → F) (tol : F) (V : FunctionSpace F)
        (basis : List (Vec F)),
      exact_sqrt sqrt → 0 < tol → build_near_nullspace sqrt tol V = .ok basis →
      basis.length = 6 ∧
      (∀ i j, i < 6 → j < 6 → i ≠ j →
        dot V.size (basis.getD i zero_vec) (basis.getD j zero_vec) = 0) ∧
      (∀ i, i < 6 → norm sqrt V.size (basis.getD i zero_vec) = 1)) := by
  constructor
  · intro K _ _ _ _ _ _ _ _ sqrt tol V basis h
    obtain ⟨raw, hraw, hpass, hlen⟩ := build_ok_norms sqrt tol V basis h
    exact ⟨hlen, raw, hraw, build_ok_projections sqrt tol V basis raw h hraw, hpass⟩
  · intro F _ sqrt tol V basis hs htol h
    obtain ⟨hon, hlen⟩ := build_orthonormal sqrt tol hs htol V basis h
    obtain ⟨hpair, hunit⟩ := orthonormal_set_index V.size basis hon
    rw [hlen] at hpair hunit
    refine ⟨hlen, hpair, ?_⟩
    intro i hi
    unfold norm
    rw [hunit i hi]
    exact sqrt_one sqrt hs

theorem successful_build_basis_witness :
    (build_near_nullspace Double.sqrt tolerance line_e7
        = .ok (projections Double.sqrt 6 [] line_raw) ∧
      ((projections Double.sqrt 6 [] line_raw).length = 6 ∧
      ∃ raw, raw_vectors line_e7 = .ok raw ∧
        projections Double.sqrt 6 [] line_raw = projections Double.sqrt line_e7.size [] raw ∧
        ∀ a ∈ norms_met Double.sqrt tolerance line_e7.size [] raw, ¬ a < tolerance)) ∧
    (exact_sqrt Real.sqrt ∧ (0 : ℝ) < 1 / 10 ^ 10 ∧
      build_near_nullspace Real.sqrt (1 / 10 ^ 10) (sample_space ℝ)
        = .ok (normalized Real.sqrt 6 (raw_closed (sample_space ℝ))) ∧
      ((normalized Real.sqrt 6 (raw_closed (sample_space ℝ))).length = 6 ∧
      (∀ i j, i < 6 → j < 6 → i ≠ j →
        dot (sample_space ℝ).size
          ((normalized Real.sqrt 6 (raw_closed (sample_space ℝ))).getD i zero_vec)
          ((normalized Real.sqrt 6 (raw_closed (sample_space ℝ))).getD j zero_vec) = 0) ∧
      (∀ i, i < 6 → norm Real.sqrt (sample_space ℝ).size
          ((normalized Real.sqrt 6 (raw_closed (sample_space ℝ))).getD i zero_vec) = 1))) :=
  ⟨⟨line_build, successful_build_basis.1 Double Double.sqrt tolerance line_e7 _ line_build⟩,
    real_sqrt_exact, by norm_num, sample_build,
    successful_build_basis.2 ℝ Real.sqrt (1 / 10 ^ 10) (sample_space ℝ) _ real_sqrt_exact
      (by norm_num) sample_build⟩

/-- C3 as stated fails in double precision: on the space `line_e7` (dofs on
the line through the origin along (1,1,1), at 1e7 and 2e7) the builder
succeeds with the tolerance 1e-10 and returns six vectors of which vectors 4
and 5 have an inner product above 9/10 and vector 0 has an inner product with
itself that is not 1. -/
theorem line_basis_not_orthonormal :
    ∃ basis, build_near_nullspace Double.sqrt tolerance line_e7 = .ok basis ∧
      basis.length = 6 ∧
      (9 : ℚ) / 10 < dot 6 (Double.vals (basis.getD 4 zero_vec))
        (Double.vals (basis.getD 5 zero_vec)) ∧
      dot 6 (Double.vals (basis.getD 0 zero_vec)) (Double.vals (basis.getD 0 zero_vec)) ≠ 1 :=
  ⟨_, line_build, (build_ok_norms _ _ _ _ line_build).choose_spec.2.2, line_check⟩

/-- C5: a space with fewer than three components (two, for one) is rejected:
`build_near_nullspace` ends with the configuration error of the first missing
sub-space and returns no basis set. -/
theorem too_few_components [LinearOrderedField K] (sqrt : K → K) (tol : K)
    (V : FunctionSpace K) (h : V.components.length < 3) :
    (∃ i, i < 3 ∧ build_near_nullspace sqrt tol V = .error (.config i V.components.length)) ∧
    ∀ basis, build_near_nullspace sqrt tol V ≠ .ok basis := by
  obtain ⟨i, hi, he⟩ := raw_vectors_error V h
  have hb : build_near_nullspace sqrt tol V = .error (.config i V.components.length) := by
    unfold build_near_nullspace
    rw [he]
  refine ⟨⟨i, hi, hb⟩, ?_⟩
  intro basis hok
  rw [hb] at hok
  cases hok

theorem too_few_components_witness :
    (planar_space ℚ).components.length < 3 ∧
    ((∃ i, i < 3 ∧ build_near_nullspace (fun a => a) (1 / 10 ^ 10) (planar_space ℚ)
        = .error (.config i (planar_space ℚ).components.length)) ∧
      ∀ basis, build_near_nullspace (fun a => a) (1 / 10 ^ 10) (planar_space ℚ) ≠ .ok basis) :=
  ⟨by decide, too_few_components (fun a => a) (1 / 10 ^ 10) (planar_space ℚ) (by decide)⟩

/-- C6, as amended: in any arithmetic, when some norm met by the
orthonormalisation is below the tolerance (a norm that collapsed to zero, for
one), `build_near_nullspace` returns no basis set: it reports the degenerate
vector, with its index and a norm below the tolerance; in exact arithmetic (a
linearly ordered field, an exact square root, a positive tolerance) this is
the case whenever the six raw vectors are linearly dependent. -/
theorem degenerate_norm_rejected :
    (∀ (K : Type) [Zero K] [One K] [Add K] [Mul K] [Neg K] [Div K] [LT K]
        [∀ a b : K, Decidable (a < b)]
        (sqrt : K → K) (tol : K) (V : FunctionSpace K) (raw : List (Vec K)),
      raw_vectors V = .ok raw →
      (∃ a ∈ norms_met sqrt tol V.size [] raw, a < tol) →
      (∃ i nrm, build_near_nullspace sqrt tol V = .error (.degenerate i nrm) ∧
        i < 6 ∧ nrm < tol) ∧
      ∀ basis, build_near_nullspace sqrt tol V ≠ .ok basis) ∧
    (∀ (F : Type) [LinearOrderedField F] (sqrt : F → F) (tol : F) (V : FunctionSpace F)
        (raw : List (Vec F)),
      exact_sqrt sqrt → 0 < tol → raw_vectors V = .ok raw →
      ¬ LinearIndependent F (rows V.size 6 raw) →
      (∃ a ∈ norms_met sqrt tol V.size [] raw, a < tol) ∧
      (∃ i nrm, build_near_nullspace sqrt tol V = .error (.degenerate i nrm) ∧
        i < 6 ∧ nrm < tol) ∧
      ∀ basis, build_near_nullspace sqrt tol V ≠ .ok basis) := by
  have partA : ∀ (K : Type) [Zero K] [One K] [Add K] [Mul K] [Neg K] [Div K] [LT K]
        [∀ a b : K, Decidable (a < b)]
      (sqrt : K → K) (tol : K) (V : FunctionSpace K) (raw : List (Vec K)),
      raw_vectors V = .ok raw →
      (∃ a ∈ norms_met sqrt tol V.size [] raw, a < tol) →
      (∃ i nrm, build_near_nullspace sqrt tol V = .error (.degenerate i nrm) ∧
        i < 6 ∧ nrm < tol) ∧
      ∀ basis, build_near_nullspace sqrt tol V ≠ .ok basis := by
    intro K _ _ _ _ _ _ _ _ sqrt tol V raw hraw hex
    obtain ⟨i, nrm, he, hi, hlt⟩ := build_fail sqrt tol V raw hraw hex
    refine ⟨⟨i, nrm, he, hi, hlt⟩, ?_⟩
    intro basis hb
    rw [he] at hb
    cases hb
  refine ⟨partA, ?_⟩
  intro F _ sqrt tol V raw hs htol hraw hdep
  obtain ⟨h3, hc⟩ := raw_vectors_inv V raw hraw
  subst hc
  have hno : ∀ basis, build_near_nullspace sqrt tol V ≠ .ok basis :=
    fun basis hb => hdep (raw_independent_of_build sqrt tol hs htol V basis hb)
  have hex : ∃ a ∈ norms_met sqrt tol V.size [] (raw_closed V), a < tol := by
    by_contra hnone
    obtain ⟨basis, hb, _⟩ := build_pass sqrt tol V (raw_closed V) hraw
      (fun a ha hlt => hnone ⟨a, ha, hlt⟩)
    exact hno basis hb
  exact ⟨hex, (partA F sqrt tol V (raw_closed V) hraw hex).1, hno⟩

theorem degenerate_norm_rejected_witness :
    (raw_vectors (origin_space Double) = .ok origin_raw ∧
      (∃ a ∈ norms_met Double.sqrt tolerance (origin_space Double).size [] origin_raw,
        a < tolerance) ∧
      ((∃ i nrm, build_near_nullspace Double.sqrt tolerance (origin_space Double)
          = .error (.degenerate i nrm) ∧ i < 6 ∧ nrm < tolerance) ∧
      ∀ basis, build_near_nullspace Double.sqrt tolerance (origin_space Double) ≠ .ok basis)) ∧
    (exact_sqrt Real.sqrt ∧ (0 : ℝ) < 1 / 10 ^ 10 ∧
      raw_vectors (origin_space ℝ) = .ok (raw_closed (origin_space ℝ)) ∧
      ¬ LinearIndependent ℝ (rows (origin_space ℝ).size 6 (raw_closed (origin_space ℝ))) ∧
      ((∃ a ∈ norms_met Real.sqrt (1 / 10 ^ 10) (origin_space ℝ).size []
          (raw_closed (origin_space ℝ)), a < 1 / 10 ^ 10) ∧
      (∃ i nrm, build_near_nullspace Real.sqrt (1 / 10 ^ 10) (origin_space ℝ)
          = .error (.degenerate i nrm) ∧ i < 6 ∧ nrm < 1 / 10 ^ 10) ∧
      ∀ basis, build_near_nullspace Real.sqrt (1 / 10 ^ 10) (origin_space ℝ) ≠ .ok basis)) :=
  ⟨⟨origin_raw_ok, origin_norm_fails,
      degenerate_norm_rejected.1 Double Double.sqrt tolerance (origin_space Double) origin_raw
        origin_raw_ok origin_norm_fails⟩,
    real_sqrt_exact, by norm_num, raw_vectors_ok _ (by decide), origin_raw_dependent,
    degenerate_norm_rejected.2 ℝ Real.sqrt (1 / 10 ^ 10) (origin_space ℝ) _ real_sqrt_exact
      (by norm_num) (raw_vectors_ok _ (by decide)) origin_raw_dependent⟩

/-- C6 as stated fails in double precision: on the space `line_e7` (all dof
coordinates on the line through the origin along (1,1,1), at 1e7 and 2e7) the
six raw vectors are linearly dependent, the three rotation modes adding up to
zero, yet with the tolerance 1e-10 no error is reported and six vectors are
returned. -/
theorem dependent_line_accepted :
    raw_vectors line_e7 = .ok line_raw ∧
    (∀ d, d < 6 → (line_raw.getD 3 zero_vec d).val + (line_raw.getD 4 zero_vec d).val
      + (line_raw.getD 5 zero_vec d).val = 0) ∧
    ¬ LinearIndependent ℚ (fun (i : Fin 6) (d : Fin 6) => (line_raw.getD i zero_vec d).val) ∧
    (∃ basis, build_near_nullspace Double.sqrt tolerance line_e7 = .ok basis ∧
      basis.length = 6) ∧
    ∀ e, build_near_nullspace Double.sqrt tolerance line_e7 ≠ .error e := by
  refine ⟨line_raw_ok, line_raw_sum, line_raw_dependent,
    ⟨_, line_build, (build_ok_norms _ _ _ _ line_build).choose_spec.2.2⟩, ?_⟩
  intro e he
  rw [line_build] at he
  cases he

/-- C7: the nullspace test of `problem` is a diagnostic only.  Whatever
`MatNullSpaceTest` answers, `problem` fails or succeeds alike and returns the
same tuple `(A, b, u)`, near-nullspace of `A` included; the answer decides
the printed line and nothing else. -/
theorem nullspace_test_is_diagnostic [LinearOrderedField K] {Mesh M : Type}
    (lib : Library Mesh M K) (test1 test2 : List (Vec K) → M → Bool)
    (sqrt : K → K) (tol : K) (mesh : Mesh) :
    Except.map Outcome.tuple (problem { lib with MatNullSpaceTest := test1 } sqrt tol mesh)
      = Except.map Outcome.tuple (problem { lib with MatNullSpaceTest := test2 } sqrt tol mesh) ∧
    ∀ o, problem lib sqrt tol mesh = .ok o →
      o.A.near_nullspace = (build_near_nullspace sqrt tol (lib.create_functionspace mesh)).toOption ∧
      ∃ nullspace, o.A.near_nullspace = some nullspace ∧
        o.printed =
          if lib.MatNullSpaceTest nullspace (lib.assemble_matrix (lib.create_functionspace mesh) false)
            = true
          then "Is a nullspace: 1" else "Not a nullspace: 0" := by
  constructor
  · simp only [problem]
    cases build_near_nullspace sqrt tol (lib.create_functionspace mesh) <;> rfl
  · intro o ho
    simp only [problem] at ho
    cases hb : build_near_nullspace sqrt tol (lib.create_functionspace mesh) with
    | error e => rw [hb] at ho; cases ho
    | ok nullspace =>
      rw [hb] at ho
      have ho2 := Except.ok.inj ho
      subst ho2
      exact ⟨rfl, nullspace, rfl, rfl⟩

/-- C9, as amended: in a space whose dofs belong to one component each, whose
points carry a dof of each component and include three points that are not on
one line, the six raw vectors are linearly independent and every norm the
orthonormalisation meets (exact arithmetic, positive tolerance) is positive;
when every norm met is at least the tolerance the builder returns exactly six
vectors, and when some norm met is below the tolerance it reports that norm,
positive and below the tolerance, and returns no basis set. -/
theorem raw_modes_independent [LinearOrderedField K] (sqrt : K → K) (tol : K)
    (hs : exact_sqrt sqrt) (htol : 0 < tol) (V : FunctionSpace K) (hsep : V.separate)
    (hrange : V.in_range) (hall : V.carries_all) (hthree : V.three_noncollinear) :
    (∃ raw, raw_vectors V = .ok raw ∧ raw.length = 6 ∧
      LinearIndependent K (rows V.size 6 raw) ∧
      (∀ a ∈ norms_met sqrt tol V.size [] raw, 0 < a) ∧
      ((∀ a ∈ norms_met sqrt tol V.size [] raw, tol ≤ a) →
        ∃ basis, build_near_nullspace sqrt tol V = .ok basis ∧ basis.length = 6) ∧
      ((∃ a ∈ norms_met sqrt tol V.size [] raw, a < tol) →
        (∃ i nrm, build_near_nullspace sqrt tol V = .error (.degenerate i nrm) ∧
          i < 6 ∧ 0 < nrm ∧ nrm < tol) ∧
        ∀ basis, build_near_nullspace sqrt tol V ≠ .ok basis)) ∧
    ((∃ basis, build_near_nullspace sqrt tol V = .ok basis ∧ basis.length = 6) ∨
      ∃ i nrm, build_near_nullspace sqrt tol V = .error (.degenerate i nrm) ∧
        i < 6 ∧ 0 < nrm ∧ nrm < tol) := by
  have h3 := three_components_of_carries V hall hthree
  have hind := raw_independent V hsep hrange hall hthree
  have hpos := degenerate_norm_pos sqrt tol hs V h3 hind
  have hraw := raw_vectors_ok V h3
  have hmet : ∀ a ∈ norms_met sqrt tol V.size [] (raw_closed V), 0 < a := by
    intro a ha
    rcases norms_met_cases sqrt tol V.size (raw_closed V) [] a ha with hle | ⟨i, hi⟩
    · exact lt_of_lt_of_le htol hle
    · exact hpos i a (by rw [build_eq sqrt tol V h3]; exact hi)
  have hpass : (∀ a ∈ norms_met sqrt tol V.size [] (raw_closed V), tol ≤ a) →
      ∃ basis, build_near_nullspace sqrt tol V = .ok basis ∧ basis.length = 6 :=
    fun h => build_pass sqrt tol V (raw_closed V) hraw (fun a ha => not_lt.2 (h a ha))
  have hfail : (∃ a ∈ norms_met sqrt tol V.size [] (raw_closed V), a < tol) →
      (∃ i nrm, build_near_nullspace sqrt tol V = .error (.degenerate i nrm) ∧
        i < 6 ∧ 0 < nrm ∧ nrm < tol) ∧
      ∀ basis, build_near_nullspace sqrt tol V ≠ .ok basis := by
    intro h
    obtain ⟨i, nrm, he, hi, hlt⟩ := build_fail sqrt tol V (raw_closed V) hraw h
    refine ⟨⟨i, nrm, he, hi, hpos i nrm he, hlt⟩, ?_⟩
    intro basis hb
    rw [he] at hb
    cases hb
  refine ⟨⟨raw_closed V, hraw, rfl, hind, hmet, hpass, hfail⟩, ?_⟩
  by_cases hall2 : ∀ a ∈ norms_met sqrt tol V.size [] (raw_closed V), tol ≤ a
  · exact Or.inl (hpass hall2)
  · right
    have hex : ∃ a ∈ norms_met sqrt tol V.size [] (raw_closed V), a < tol := by
      by_contra hno
      apply hall2
      intro a ha
      exact not_lt.1 (fun hlt => hno ⟨a, ha, hlt⟩)
    exact (hfail hex).1

theorem raw_modes_independent_witness :
    exact_sqrt Real.sqrt ∧ (0 : ℝ) < 1 / 10 ^ 10 ∧
    (square_space ℝ).separate ∧ (square_space ℝ).in_range ∧
    (square_space ℝ).carries_all ∧ (square_space ℝ).three_noncollinear ∧
    build_near_nullspace Real.sqrt (1 / 10 ^ 10) (square_space ℝ)
      = .ok (normalized Real.sqrt 12 (raw_closed (square_space ℝ))) ∧
    ((∃ raw, raw_vectors (square_space ℝ) = .ok raw ∧ raw.length = 6 ∧
      LinearIndependent ℝ (rows (square_space ℝ).size 6 raw) ∧
      (∀ a ∈ norms_met Real.sqrt (1 / 10 ^ 10) (square_space ℝ).size [] raw, 0 < a) ∧
      ((∀ a ∈ norms_met Real.sqrt (1 / 10 ^ 10) (square_space ℝ).size [] raw,
          1 / 10 ^ 10 ≤ a) →
        ∃ basis, build_near_nullspace Real.sqrt (1 / 10 ^ 10) (square_space ℝ) = .ok basis ∧
          basis.length = 6) ∧
      ((∃ a ∈ norms_met Real.sqrt (1 / 10 ^ 10) (square_space ℝ).size [] raw,
          a < 1 / 10 ^ 10) →
        (∃ i nrm, build_near_nullspace Real.sqrt (1 / 10 ^ 10) (square_space ℝ)
          = .error (.degenerate i nrm) ∧ i < 6 ∧ 0 < nrm ∧ nrm < 1 / 10 ^ 10) ∧
        ∀ basis, build_near_nullspace Real.sqrt (1 / 10 ^ 10) (square_space ℝ)
          ≠ .ok basis)) ∧
    ((∃ basis, build_near_nullspace Real.sqrt (1 / 10 ^ 10) (square_space ℝ) = .ok basis ∧
        basis.length = 6) ∨
      ∃ i nrm, build_near_nullspace Real.sqrt (1 / 10 ^ 10) (square_space ℝ)
        = .error (.degenerate i nrm) ∧ i < 6 ∧ 0 < nrm ∧ nrm < 1 / 10 ^ 10)) :=
  ⟨real_sqrt_exact, by norm_num, square_space_separate, square_space_in_range,
    square_space_carries_all, square_space_three, square_build,
    raw_modes_independent Real.sqrt (1 / 10 ^ 10) real_sqrt_exact (by norm_num)
      (square_space ℝ) square_space_separate square_space_in_range
      square_space_carries_all square_space_three⟩

/-- C9 as stated fails on a small triangle: the space on the points (0,0,0),
(s,0,0), (0,s,0) with `s = 1e-11` meets every hypothesis, its raw vectors are
linearly independent, and with the tolerance `1e-10` the builder returns no
basis set but reports a norm below the tolerance. -/
theorem tiny_triangle_rejected :
    exact_sqrt Real.sqrt ∧
    (triangle_space ℝ (1 / 10 ^ 11)).separate ∧ (triangle_space ℝ (1 / 10 ^ 11)).in_range ∧
    (triangle_space ℝ (1 / 10 ^ 11)).carries_all ∧
    (triangle_space ℝ (1 / 10 ^ 11)).three_noncollinear ∧
    LinearIndependent ℝ (rows 9 6 (raw_closed (triangle_space ℝ (1 / 10 ^ 11)))) ∧
    (∃ i nrm, build_near_nullspace Real.sqrt (1 / 10 ^ 10) (triangle_space ℝ (1 / 10 ^ 11))
      = .error (.degenerate i nrm) ∧ i < 6 ∧ nrm < 1 / 10 ^ 10) ∧
    ¬ ∃ basis, build_near_nullspace Real.sqrt (1 / 10 ^ 10) (triangle_space ℝ (1 / 10 ^ 11))
      = .ok basis ∧ basis.length = 6 := by
  have hne : (1 : ℝ) / 10 ^ 11 ≠ 0 := by norm_num
  refine ⟨real_sqrt_exact, triangle_space_separate _, triangle_space_in_range _,
    triangle_space_carries_all _, triangle_space_three _ hne,
    raw_independent _ (triangle_space_separate _) (triangle_space_in_range _)
      (triangle_space_carries_all _) (triangle_space_three _ hne), tiny_build_error, ?_⟩
  rintro ⟨basis, hb, _⟩
  obtain ⟨i, nrm, he, _⟩ := tiny_build_error
  rw [he] at hb
  cases hb

end elastic

namespace driver

/-- C10: the option dispatch of `main` raises a runtime error exactly when the
scaling type is neither "strong" nor "weak" or the problem type is neither
"poisson" nor "elasticity"; otherwise `strong_scaling` is true exactly for
"strong" and the mesh is created for 1 component for "poisson", 3 for
"elasticity". -/
theorem dispatch_spec (scaling_type problem_type : String) :
    ((∃ e, dispatch scaling_type problem_type = .error e) ↔
      ((scaling_type ≠ "strong" ∧ scaling_type ≠ "weak") ∨
        (problem_type ≠ "poisson" ∧ problem_type ≠ "elasticity"))) ∧
    (¬ ((scaling_type ≠ "strong" ∧ scaling_type ≠ "weak") ∨
        (problem_type ≠ "poisson" ∧ problem_type ≠ "elasticity")) →
      ∃ strong_scaling n, dispatch scaling_type problem_type = .ok (strong_scaling, n) ∧
        (strong_scaling = true ↔ scaling_type = "strong") ∧
        (problem_type = "poisson" → n = 1) ∧ (problem_type = "elasticity" → n = 3)) := by
  unfold dispatch scaling mesh_components
  by_cases h1 : scaling_type = "strong" <;> by_cases h2 : scaling_type = "weak" <;>
    by_cases h3 : problem_type = "poisson" <;> by_cases h4 : problem_type = "elasticity" <;>
    simp_all

end driver
